import Mathlib

/-!
Shallow embedding of `milk/measures/nfoldcrossvalidation.py`: the fold-assignment
algorithm of `foldgenerator`, the single-fold accessor `getfold`, and the
predictions-buffer behaviour of `nfoldcrossvalidation`.  Lists model numpy arrays
and `Except` models raised Python exceptions (`ValueError`, `NameError`).
The file is written against a Python 2 reading of the source (it uses `xrange`),
which matters only for `getfold` where `None < fold` is `True` for every int.
-/

namespace Milk

/-- Insert a value into a strictly sorted duplicate-free list, keeping it strictly
sorted and duplicate-free; helper for `uniqueSorted`. -/
def insertUnique (x : Nat) : List Nat → List Nat
  | [] => [x]
  | y :: ys =>
    if x < y then x :: y :: ys
    else if x = y then y :: ys
    else y :: insertUnique x ys

/-- Ascending list of the distinct elements of `l`: models `np.unique` and also
iteration over a Python `set` of small non-negative ints (ascending order). -/
def uniqueSorted (l : List Nat) : List Nat := l.foldr insertUnique []

/-- Modelled from the spec: the external Label Normalizer (`normaliselabels`, imported
from `milk.supervised.classifier` and not part of this repository slice) "maps
arbitrary label values to dense integer codes 0..K-1 plus a name table".  `names` is
the sorted table of distinct label values and sample `i` receives the position of its
label in `names`. -/
def normaliselabels (labels : List Nat) : List Nat × List Nat :=
  let names := uniqueSorted labels
  (labels.map fun l => List.indexOf l names, names)

/-- Model of `np.argmin`: index of the first occurrence of the minimum value;
`none` on the empty array, where numpy raises `ValueError`. -/
def argmin : List Nat → Option Nat
  | [] => none
  | x :: xs => some (List.indexOf (xs.foldr min x) (x :: xs))

/-- Ascending lexicographic order on `(weight, origin)` pairs: the order in which
Python `sorted(zip(weights, usedorigins))` lists them. -/
def pairRel (a b : Nat × Nat) : Prop := a.1 < b.1 ∨ (a.1 = b.1 ∧ a.2 ≤ b.2)

instance : DecidableRel pairRel := fun a b => by unfold pairRel; exact inferInstance

instance : IsTotal (Nat × Nat) pairRel := ⟨by intro a b; unfold pairRel; omega⟩

instance : IsTrans (Nat × Nat) pairRel := ⟨by intro a b c; unfold pairRel; omega⟩

/-- The `ValueError`s that `foldgenerator` can raise, by site:
`sizeMismatch` = "origins must be of same size as labels" (line 41),
`insufficientOrigins` = "nfolds was reduced to 1 because minimum class size was 1"
(line 50), `inconsistentOrigin o` = "Maybe origin o is present in two labels"
(line 73), and `emptyFoldweight` = the `ValueError` numpy's `argmin` raises on an
empty array (reachable only when the resolved `nfolds` is `0`). -/
inductive FoldError where
  | sizeMismatch : FoldError
  | insufficientOrigins : FoldError
  | inconsistentOrigin (orig : Nat) : FoldError
  | emptyFoldweight : FoldError
  deriving DecidableEq

/-- `np.unique(origins[labels == lab])`: the sorted distinct origins of the samples
of class `lab` (line 67). -/
def classOrigins (labels origins : List Nat) (lab : Nat) : List Nat :=
  uniqueSorted ((labels.zip origins).filterMap fun lo => if lo.1 = lab then some lo.2 else none)

/-- `np.array([np.sum(origins == orig) for orig in usedorigins])` (line 68): the
weight of each used origin is its sample count over the whole `origins` array. -/
def classWeights (origins usedorigins : List Nat) : List Nat :=
  usedorigins.map fun orig => List.count orig origins

/-- `sorted(zip(weights, usedorigins))` (line 70): the class's `(weight, origin)`
pairs in ascending lexicographic order. -/
def classPairs (labels origins : List Nat) (lab : Nat) : List (Nat × Nat) :=
  List.insertionSort pairRel
    ((classWeights origins (classOrigins labels origins lab)).zip (classOrigins labels origins lab))

/-- `fold[origins == orig] = f` (line 75): every sample whose origin is `orig` gets
fold `f`; everything else is unchanged. -/
def assignFold (origins : List Nat) (orig f : Nat) (fold : List Int) : List Int :=
  List.zipWith (fun o fv => if o = orig then (f : Int) else fv) origins fold

/-- `foldweight[f] += w` (line 76). -/
def bumpWeight (foldweight : List Nat) (f w : Nat) : List Nat :=
  foldweight.set f (foldweight.getD f 0 + w)

/-- One iteration of the loop of lines 70-76 on state `(fold, foldweight)` and pair
`p = (w, orig)`: take `f = argmin(foldweight)` (line 71), raise if any sample of
this origin already has a fold (lines 72-74), else record the fold for the origin's
samples and add its weight to fold `f`'s accumulator (lines 75-76). -/
def assignOrigin (origins : List Nat) (st : List Int × List Nat) (p : Nat × Nat) :
    Except FoldError (List Int × List Nat) :=
  match argmin st.2 with
  | none => .error .emptyFoldweight
  | some f =>
    if (origins.zip st.1).any (fun q => q.1 == p.2 && decide ((-1 : Int) < q.2)) then
      .error (.inconsistentOrigin p.2)
    else
      .ok (assignFold origins p.2 f st.1, bumpWeight st.2 f p.1)

/-- The body of the per-class loop (lines 65-76): fresh zero `foldweight` of size
`nfolds` (line 69), then fold `assignOrigin` over the class's sorted pairs. -/
def assignClass (labels origins : List Nat) (nfolds : Nat) (fold : List Int) (lab : Nat) :
    Except FoldError (List Int) :=
  match (classPairs labels origins lab).foldlM (assignOrigin origins)
      (fold, List.replicate nfolds 0) with
  | .error e => .error e
  | .ok st => .ok st.1

/-- Lines 55-56 and 65-76: start from an all-`-1` fold array and process every class
in `set(labels)` order. -/
def assignAll (labels origins : List Nat) (nfolds : Nat) : Except FoldError (List Int) :=
  (uniqueSorted labels).foldlM (assignClass labels origins nfolds)
    (List.replicate labels.length (-1 : Int))

/-- `fmin` of lines 44-47: minimum over classes of the number of distinct origins in
the class, seeded with `len(labels)`. -/
def fminAux (labels origins : List Nat) : Nat :=
  (uniqueSorted labels).foldl
    (fun m lab => min m (classOrigins labels origins lab).length) labels.length

/-- Lines 37-38: the default origins array is `np.arange(len(labels))`. -/
def resolveOrigins (n : Nat) : Option (List Nat) → List Nat
  | none => List.range n
  | some o => o

/-- Lines 58-63: resolve the realized fold count, flagging whether the clamping
warning was emitted. -/
def resolveNfolds (fmin : Nat) : Option Nat → Nat × Bool
  | none => (min fmin 10, false)
  | some n => if fmin < n then (fmin, true) else (n, false)

/-- Lines 78-79: the `(train, test)` mask pairs, one per fold index in increasing
order; `train = (fold != f)` and `test = (fold == f)`. -/
def masks (nfolds : Nat) (fold : List Int) : List (List Bool × List Bool) :=
  (List.range nfolds).map fun (f : Nat) =>
    (fold.map fun v => decide (v ≠ (f : Int)), fold.map fun v => decide (v = (f : Int)))

/-- `foldgenerator` after labels have been normalised and origins resolved
(lines 44-79). -/
def foldgeneratorCore (labels origins : List Nat) (nfolds? : Option Nat) :
    Except FoldError (List (List Bool × List Bool)) :=
  if fminAux labels origins = 1 then .error .insufficientOrigins
  else
    match assignAll labels origins (resolveNfolds (fminAux labels origins) nfolds?).1 with
    | .error e => .error e
    | .ok fold => .ok (masks (resolveNfolds (fminAux labels origins) nfolds?).1 fold)

/-- `foldgenerator(labels, nfolds, origins)` (lines 11-79), with the full (finite)
yielded sequence materialised as a list.  A raised `ValueError` is modelled as
`.error`, in which case the generator yields nothing. -/
def foldgenerator (labels0 : List Nat) (nfolds? : Option Nat) (origins? : Option (List Nat)) :
    Except FoldError (List (List Bool × List Bool)) :=
  match origins? with
  | none => foldgeneratorCore (normaliselabels labels0).1 (List.range labels0.length) nfolds?
  | some o =>
    if o.length = labels0.length then foldgeneratorCore (normaliselabels labels0).1 o nfolds?
    else .error .sizeMismatch

/-- The exceptions `getfold` can surface:
`invalidFoldIndex fold nfolds?` = the line-98 guard `nfolds < fold` (under Python 2,
`None < fold` is `True` for every `fold`, so `nfolds? = none` always trips it),
`foldsTooSmall fold i` = the line-103 `ValueError`, whose message inserts the last
loop index `i`, `unboundLoopVar` = the `NameError` of line 103 when the generator
yielded nothing (the loop variable `i` was never bound), and `gen e` = a
`ValueError` propagated out of `foldgenerator`. -/
inductive GetfoldError where
  | invalidFoldIndex (fold : Nat) (nfolds? : Option Nat) : GetfoldError
  | foldsTooSmall (fold lastIndex : Nat) : GetfoldError
  | unboundLoopVar : GetfoldError
  | gen (e : FoldError) : GetfoldError
  deriving DecidableEq

/-- `getfold(labels, fold, nfolds, origins)` (lines 81-103). -/
def getfold (labels : List Nat) (fold : Nat) (nfolds? : Option Nat)
    (origins? : Option (List Nat)) : Except GetfoldError (List Bool × List Bool) :=
  match nfolds? with
  | none => .error (.invalidFoldIndex fold none)
  | some nfolds =>
    if nfolds < fold then .error (.invalidFoldIndex fold (some nfolds))
    else
      match foldgenerator labels (some nfolds) origins? with
      | .error e => .error (.gen e)
      | .ok pairs =>
        match pairs.get? fold with
        | some p => .ok p
        | none =>
          if pairs.isEmpty then .error .unboundLoopVar
          else .error (.foldsTooSmall fold (pairs.length - 1))

/-- `predictions[testingset] = ...` for one fold (line 164): entry `i` of the buffer
is overwritten with the fold's prediction for sample `i` exactly when the test mask
holds at `i`.  `pf1 i` abstracts `model.apply(features[i])`. -/
def writeTest (pf1 : Nat → Nat) : Nat → List Bool → List Int → List Int
  | _, [], _ => []
  | _, _ :: _, [] => []
  | i, t :: ts, b :: bs => (if t then (pf1 i : Int) else b) :: writeTest pf1 (i + 1) ts bs

/-- The predictions buffer after the fold loop of lines 160-164: pre-filled with the
sentinel `-1` (lines 152-153) and overwritten fold by fold at the test-mask indices.
`pf k i` abstracts the prediction of fold `k`'s trained model on sample `i`. -/
def runPredictions (pf : Nat → Nat → Nat) (pairs : List (List Bool × List Bool)) (n : Nat) :
    List Int :=
  pairs.enum.foldl (fun buf kp => writeTest (pf kp.1) 0 kp.2.2 buf) (List.replicate n (-1 : Int))

/-- Modelled from the spec: the `return_predictions=True` path of
`nfoldcrossvalidation` (lines 151-164), with the external classifier abstracted as
the total function `pf` (a per-fold, per-sample predicted class code: the spec's
`model.apply` returns a predicted label, and every per-fold call is assumed to
succeed).  Only the predictions buffer is modelled; the confusion-matrix
accumulation is an external collaborator. -/
def nfoldPredictions (pf : Nat → Nat → Nat) (labels : List Nat) (nfolds? : Option Nat)
    (origins? : Option (List Nat)) : Except FoldError (List Int) :=
  match foldgenerator labels nfolds? origins? with
  | .error e => .error e
  | .ok pairs => .ok (runPredictions pf pairs labels.length)

/-- The code's `fmin` as a function of the raw inputs (lines 36-47). -/
def fminOf (labels0 : List Nat) (origins? : Option (List Nat)) : Nat :=
  fminAux (normaliselabels labels0).1 (resolveOrigins labels0.length origins?)

/-- The line-40 size precondition. -/
def sizeOk (labels0 : List Nat) : Option (List Nat) → Prop
  | none => True
  | some o => o.length = labels0.length

instance (labels0 : List Nat) (origins? : Option (List Nat)) :
    Decidable (sizeOk labels0 origins?) := by
  cases origins? <;> (unfold sizeOk; exact inferInstance)

/-- Class-purity of an origins array: samples sharing an origin share a label. -/
def classPure (labels origins : List Nat) : Prop :=
  ∀ i < labels.length, ∀ j < labels.length,
    origins.getD i 0 = origins.getD j 0 → labels.getD i 0 = labels.getD j 0

instance (labels origins : List Nat) : Decidable (classPure labels origins) := by
  unfold classPure; exact inferInstance

/-- Class-purity of the resolved origins of a call. -/
def classPureOpt (labels0 : List Nat) (origins? : Option (List Nat)) : Prop :=
  classPure labels0 (resolveOrigins labels0.length origins?)

instance (labels0 : List Nat) (origins? : Option (List Nat)) :
    Decidable (classPureOpt labels0 origins?) := by
  unfold classPureOpt; exact inferInstance

/-- A requested fold count is in contract when it is omitted or positive (the spec
treats non-positive `nfolds` as outside the contract). -/
def nfoldsPos : Option Nat → Prop
  | none => True
  | some n => 1 ≤ n

instance (nfolds? : Option Nat) : Decidable (nfoldsPos nfolds?) := by
  cases nfolds? <;> (unfold nfoldsPos; exact inferInstance)

/-! ## Basic facts about `uniqueSorted` -/

theorem mem_insertUnique (a x : Nat) (l : List Nat) : a ∈ insertUnique x l ↔ a = x ∨ a ∈ l := by
  induction l with
  | nil => simp [insertUnique]
  | cons y ys ih =>
    unfold insertUnique
    by_cases h1 : x < y
    · simp [h1]
    · by_cases h2 : x = y
      · subst h2; simp [h1]
      · simp [h1, h2, ih]; tauto

theorem sorted_insertUnique (x : Nat) (l : List Nat) (hl : l.Sorted (· < ·)) :
    (insertUnique x l).Sorted (· < ·) := by
  induction l with
  | nil => simp [insertUnique]
  | cons y ys ih =>
    rw [List.sorted_cons] at hl
    unfold insertUnique
    by_cases h1 : x < y
    · rw [if_pos h1, List.sorted_cons]
      constructor
      · intro b hb
        rcases List.mem_cons.mp hb with rfl | hb
        · exact h1
        · exact lt_trans h1 (hl.1 b hb)
      · rw [List.sorted_cons]; exact hl
    · by_cases h2 : x = y
      · rw [if_neg h1, if_pos h2, List.sorted_cons]; exact hl
      · rw [if_neg h1, if_neg h2, List.sorted_cons]
        refine ⟨?_, ih hl.2⟩
        intro b hb
        rcases (mem_insertUnique b x ys).mp hb with rfl | hb
        · omega
        · exact hl.1 b hb

theorem uniqueSorted_cons (y : Nat) (ys : List Nat) :
    uniqueSorted (y :: ys) = insertUnique y (uniqueSorted ys) := rfl

theorem uniqueSorted_sorted (l : List Nat) : (uniqueSorted l).Sorted (· < ·) := by
  induction l with
  | nil => exact List.sorted_nil
  | cons y ys ih => rw [uniqueSorted_cons]; exact sorted_insertUnique y _ ih

theorem mem_uniqueSorted (a : Nat) (l : List Nat) : a ∈ uniqueSorted l ↔ a ∈ l := by
  induction l with
  | nil => simp [uniqueSorted]
  | cons y ys ih => rw [uniqueSorted_cons, mem_insertUnique, ih, List.mem_cons]

theorem uniqueSorted_nodup (l : List Nat) : (uniqueSorted l).Nodup :=
  (uniqueSorted_sorted l).nodup

/-! ## Facts about `argmin` -/

theorem foldr_min_mem (xs : List Nat) (x : Nat) : xs.foldr min x ∈ x :: xs := by
  induction xs with
  | nil => simp
  | cons y ys ih =>
    simp only [List.foldr_cons]
    rcases le_total y (ys.foldr min x) with h | h
    · rw [min_eq_left h]; simp
    · rw [min_eq_right h]
      rcases List.mem_cons.mp ih with h' | h'
      · rw [h']; simp
      · exact List.mem_cons.mpr (Or.inr (List.mem_cons.mpr (Or.inr h')))

theorem foldr_min_le (xs : List Nat) (x : Nat) : ∀ y ∈ x :: xs, xs.foldr min x ≤ y := by
  induction xs with
  | nil => intro y hy; rw [List.mem_singleton] at hy; subst hy; simp
  | cons z zs ih =>
    intro y hy
    simp only [List.foldr_cons]
    rcases List.mem_cons.mp hy with rfl | hy
    · exact le_trans (min_le_right _ _) (ih y (List.mem_cons_self _ _))
    · rcases List.mem_cons.mp hy with rfl | hy
      · exact min_le_left _ _
      · exact le_trans (min_le_right _ _) (ih y (List.mem_cons.mpr (Or.inr hy)))

theorem getElem_ne_of_lt_indexOf (a : Nat) (l : List Nat) :
    ∀ j (hj : j < l.length), j < List.indexOf a l → l[j] ≠ a := by
  induction l with
  | nil => intro j hj; simp at hj
  | cons b bs ih =>
    intro j hj hlt
    by_cases hb : b = a
    · subst hb; rw [List.indexOf_cons_self] at hlt; omega
    · rw [List.indexOf_cons_ne _ hb] at hlt
      cases j with
      | zero => simpa using hb
      | succ j =>
        rw [List.getElem_cons_succ]
        exact ih j (by simpa using hj) (Nat.succ_lt_succ_iff.mp hlt)

theorem argmin_spec (l : List Nat) (f : Nat) (h : argmin l = some f) :
    ∃ hf : f < l.length,
      (∀ j (hj : j < l.length), l[f] ≤ l[j]) ∧ (∀ j (hj : j < l.length), j < f → l[f] < l[j]) := by
  cases l with
  | nil => simp [argmin] at h
  | cons x xs =>
    simp only [argmin, Option.some.injEq] at h
    subst h
    have hmem : xs.foldr min x ∈ x :: xs := foldr_min_mem xs x
    have hlt : List.indexOf (xs.foldr min x) (x :: xs) < (x :: xs).length :=
      List.indexOf_lt_length.mpr hmem
    have hget : (x :: xs)[List.indexOf (xs.foldr min x) (x :: xs)] = xs.foldr min x := by
      have := List.indexOf_get hlt
      rwa [List.get_eq_getElem] at this
    refine ⟨hlt, ?_, ?_⟩
    · intro j hj
      rw [hget]
      exact foldr_min_le xs x _ (List.getElem_mem hj)
    · intro j hj hjf
      have hne := getElem_ne_of_lt_indexOf (xs.foldr min x) (x :: xs) j hj hjf
      have hle := foldr_min_le xs x _ (List.getElem_mem hj)
      rw [hget]
      omega

theorem argmin_eq_none (l : List Nat) : argmin l = none ↔ l = [] := by
  cases l <;> simp [argmin]

theorem argmin_isSome (l : List Nat) (h : l ≠ []) : ∃ f, argmin l = some f := by
  cases l with
  | nil => simp at h
  | cons x xs => exact ⟨_, rfl⟩

/-! ## Pointwise descriptions of the update helpers -/

theorem length_assignFold (origins : List Nat) (orig f : Nat) (fold : List Int) :
    (assignFold origins orig f fold).length = min origins.length fold.length := by
  simp [assignFold]

theorem getElem_assignFold (origins : List Nat) (orig f : Nat) (fold : List Int) (i : Nat)
    (h1 : i < origins.length) (h2 : i < fold.length)
    {h : i < (assignFold origins orig f fold).length} :
    (assignFold origins orig f fold)[i] =
      if origins[i] = orig then (f : Int) else fold[i] := by
  simp [assignFold, List.getElem_zipWith]

theorem length_bumpWeight (foldweight : List Nat) (f w : Nat) :
    (bumpWeight foldweight f w).length = foldweight.length := by
  simp [bumpWeight]

theorem length_masks (nfolds : Nat) (fold : List Int) : (masks nfolds fold).length = nfolds := by
  unfold masks; rw [List.length_map, List.length_range]

theorem getElem_masks (nfolds : Nat) (fold : List Int) (k : Nat)
    (h : k < (masks nfolds fold).length) :
    (masks nfolds fold)[k] =
      (fold.map fun v => decide (v ≠ (k : Int)), fold.map fun v => decide (v = (k : Int))) := by
  simp only [masks, List.getElem_map, List.getElem_range]

theorem anyCheck_iff (origins : List Nat) (fold : List Int) (o : Nat) :
    ((origins.zip fold).any fun q => q.1 == o && decide ((-1 : Int) < q.2)) = true ↔
      ∃ j, ∃ (h1 : j < origins.length) (h2 : j < fold.length),
        origins[j] = o ∧ (-1 : Int) < fold[j] := by
  rw [List.any_eq_true]
  constructor
  · rintro ⟨q, hq, hcond⟩
    rcases List.mem_iff_getElem.mp hq with ⟨j, hj, hqe⟩
    have hj' : j < origins.length ∧ j < fold.length := by
      rw [List.length_zip] at hj; omega
    rw [List.getElem_zip] at hqe
    refine ⟨j, hj'.1, hj'.2, ?_⟩
    rw [← hqe] at hcond
    simpa using hcond
  · rintro ⟨j, h1, h2, ho, hf⟩
    refine ⟨(origins[j], fold[j]), ?_, by simpa using ⟨ho, hf⟩⟩
    refine List.mem_iff_getElem.mpr ⟨j, ?_, ?_⟩
    · rw [List.length_zip]; omega
    · rw [List.getElem_zip]

/-! ## Characterisation of one `assignOrigin` step -/

theorem assignOrigin_ok_elim {origins : List Nat} {st : List Int × List Nat} {p : Nat × Nat}
    {st' : List Int × List Nat} (h : assignOrigin origins st p = .ok st') :
    ∃ f, argmin st.2 = some f ∧
      st'.1.length = min origins.length st.1.length ∧
      st'.2 = bumpWeight st.2 f p.1 ∧
      (∀ i (h1 : i < origins.length) (h2 : i < st.1.length) (h3 : i < st'.1.length),
        st'.1[i] = if origins[i] = p.2 then (f : Int) else st.1[i]) ∧
      ∀ j (h1 : j < origins.length) (h2 : j < st.1.length),
        origins[j] = p.2 → ¬((-1 : Int) < st.1[j]) := by
  unfold assignOrigin at h
  split at h
  · exact absurd h (by simp)
  next f harg =>
    split at h
    · exact absurd h (by simp)
    next hc =>
      have he1 : st'.1 = assignFold origins p.2 f st.1 :=
        congrArg Prod.fst (Except.ok.inj h).symm
      refine ⟨f, harg, ?_, congrArg Prod.snd (Except.ok.inj h).symm, ?_, ?_⟩
      · rw [he1, length_assignFold]
      · intro i h1 h2 h3
        rw [List.getElem_of_eq he1 h3, getElem_assignFold origins p.2 f st.1 i h1 h2]
      · intro j h1 h2 ho hf
        exact hc ((anyCheck_iff origins st.1 p.2).mpr ⟨j, h1, h2, ho, hf⟩)

theorem assignOrigin_error_elim {origins : List Nat} {st : List Int × List Nat} {p : Nat × Nat}
    {e : FoldError} (h : assignOrigin origins st p = .error e) :
    (st.2 = [] ∧ e = .emptyFoldweight) ∨
      (e = .inconsistentOrigin p.2 ∧
        ∃ j, ∃ (h1 : j < origins.length) (h2 : j < st.1.length),
          origins[j] = p.2 ∧ (-1 : Int) < st.1[j]) := by
  unfold assignOrigin at h
  split at h
  next harg =>
    exact Or.inl ⟨(argmin_eq_none st.2).mp harg, (Except.error.inj h).symm⟩
  next f harg =>
    split at h
    next hc =>
      exact Or.inr ⟨(Except.error.inj h).symm, (anyCheck_iff origins st.1 p.2).mp hc⟩
    next hc => exact absurd h (by simp)

/-! ## Destructuring `foldlM` runs in `Except` -/

theorem foldlM_ok_nil {σ α : Type} (f : σ → α → Except FoldError σ) {st st' : σ}
    (h : List.foldlM f st [] = .ok st') : st = st' := by
  have h' : (Except.ok st : Except FoldError σ) = .ok st' := h
  exact Except.ok.inj h'

theorem foldlM_ok_cons {σ α : Type} (f : σ → α → Except FoldError σ) {st st' : σ} {p : α}
    {ps : List α} (h : List.foldlM f st (p :: ps) = .ok st') :
    ∃ st1, f st p = .ok st1 ∧ List.foldlM f st1 ps = .ok st' := by
  rw [List.foldlM_cons] at h
  cases hx : f st p with
  | error e =>
    rw [hx] at h
    rw [show (Except.error e >>= fun init => List.foldlM f init ps) = Except.error e from rfl] at h
    exact absurd h (by simp)
  | ok st1 =>
    rw [hx] at h
    rw [show (Except.ok st1 >>= fun init => List.foldlM f init ps) = List.foldlM f st1 ps
      from rfl] at h
    exact ⟨st1, rfl, h⟩

theorem foldlM_error_cons {σ α : Type} (f : σ → α → Except FoldError σ) {e : FoldError}
    {st : σ} {p : α} {ps : List α} (h : List.foldlM f st (p :: ps) = .error e) :
    f st p = .error e ∨ ∃ st1, f st p = .ok st1 ∧ List.foldlM f st1 ps = .error e := by
  rw [List.foldlM_cons] at h
  cases hx : f st p with
  | error e0 =>
    rw [hx] at h
    rw [show (Except.error e0 >>= fun init => List.foldlM f init ps) = Except.error e0
      from rfl] at h
    exact Or.inl (by rw [← Except.error.inj h])
  | ok st1 =>
    rw [hx] at h
    rw [show (Except.ok st1 >>= fun init => List.foldlM f init ps) = List.foldlM f st1 ps
      from rfl] at h
    exact Or.inr ⟨st1, rfl, h⟩

/-! ## Invariants of the inner loop over a class's `(weight, origin)` pairs -/

theorem runPairs_ok_lengths (origins : List Nat) :
    ∀ (ps : List (Nat × Nat)) (st st' : List Int × List Nat),
      List.foldlM (assignOrigin origins) st ps = .ok st' → st.1.length = origins.length →
      st'.1.length = origins.length ∧ st'.2.length = st.2.length := by
  intro ps
  induction ps with
  | nil =>
    intro st st' h hl
    obtain rfl := foldlM_ok_nil _ h
    exact ⟨hl, rfl⟩
  | cons p ps ih =>
    intro st st' h hl
    obtain ⟨st1, h1, h2⟩ := foldlM_ok_cons _ h
    obtain ⟨f, -, hlen1, he2, -, -⟩ := assignOrigin_ok_elim h1
    have hl1 : st1.1.length = origins.length := by omega
    have := ih st1 st' h2 hl1
    refine ⟨this.1, ?_⟩
    rw [this.2, he2, length_bumpWeight]

theorem runPairs_ok_mono (origins : List Nat) :
    ∀ (ps : List (Nat × Nat)) (st st' : List Int × List Nat),
      List.foldlM (assignOrigin origins) st ps = .ok st' → st.1.length = origins.length →
      ∀ i (h1 : i < st.1.length) (h2 : i < st'.1.length),
        (-1 : Int) < st.1[i] → st'.1[i] = st.1[i] := by
  intro ps
  induction ps with
  | nil =>
    intro st st' h hl i h1 h2 hv
    obtain rfl := foldlM_ok_nil _ h
    rfl
  | cons p ps ih =>
    intro st st' h hl i h1 h2 hv
    obtain ⟨st1, hstep, hrest⟩ := foldlM_ok_cons _ h
    obtain ⟨f, -, hlen1, -, hget, hchk⟩ := assignOrigin_ok_elim hstep
    have hio : i < origins.length := by omega
    have hl1 : st1.1.length = origins.length := by omega
    have hi1 : i < st1.1.length := by omega
    have hkeep : st1.1[i] = st.1[i] := by
      rw [hget i hio h1 hi1]
      by_cases ho : origins[i] = p.2
      · exact absurd hv (hchk i hio h1 ho)
      · simp [ho]
    rw [ih st1 st' hrest hl1 i hi1 h2 (by rw [hkeep]; exact hv), hkeep]

theorem runPairs_ok_range (origins : List Nat) (nfolds : Nat) :
    ∀ (ps : List (Nat × Nat)) (st st' : List Int × List Nat),
      List.foldlM (assignOrigin origins) st ps = .ok st' → st.1.length = origins.length →
      st.2.length = nfolds →
      (∀ i (h : i < st.1.length), st.1[i] = -1 ∨ (0 ≤ st.1[i] ∧ st.1[i] < (nfolds : Int))) →
      ∀ i (h : i < st'.1.length), st'.1[i] = -1 ∨ (0 ≤ st'.1[i] ∧ st'.1[i] < (nfolds : Int)) := by
  intro ps
  induction ps with
  | nil =>
    intro st st' h hl hw hr
    obtain rfl := foldlM_ok_nil _ h
    exact hr
  | cons p ps ih =>
    intro st st' h hl hw hr
    obtain ⟨st1, hstep, hrest⟩ := foldlM_ok_cons _ h
    obtain ⟨f, harg, hlen1, he2, hget, -⟩ := assignOrigin_ok_elim hstep
    obtain ⟨hflt, -, -⟩ := argmin_spec st.2 f harg
    have hl1 : st1.1.length = origins.length := by omega
    have hw1 : st1.2.length = nfolds := by rw [he2, length_bumpWeight, hw]
    refine ih st1 st' hrest hl1 hw1 ?_ 
    intro i hi
    have hio : i < origins.length := by omega
    have hif : i < st.1.length := by omega
    rw [hget i hio hif hi]
    by_cases ho : origins[i] = p.2
    · rw [if_pos ho]
      right
      refine ⟨Int.ofNat_nonneg f, ?_⟩
      have : f < nfolds := by omega
      exact_mod_cast this
    · rw [if_neg ho]; exact hr i hif

theorem runPairs_ok_frame (origins : List Nat) :
    ∀ (ps : List (Nat × Nat)) (st st' : List Int × List Nat),
      List.foldlM (assignOrigin origins) st ps = .ok st' → st.1.length = origins.length →
      ∀ i (h1 : i < st.1.length) (h2 : i < st'.1.length) (hio : i < origins.length),
        (∀ p ∈ ps, origins[i] ≠ p.2) → st'.1[i] = st.1[i] := by
  intro ps
  induction ps with
  | nil =>
    intro st st' h hl i h1 h2 hio hne
    obtain rfl := foldlM_ok_nil _ h
    rfl
  | cons p ps ih =>
    intro st st' h hl i h1 h2 hio hne
    obtain ⟨st1, hstep, hrest⟩ := foldlM_ok_cons _ h
    obtain ⟨f, -, hlen1, -, hget, -⟩ := assignOrigin_ok_elim hstep
    have hl1 : st1.1.length = origins.length := by omega
    have hi1 : i < st1.1.length := by omega
    have hkeep : st1.1[i] = st.1[i] := by
      rw [hget i hio h1 hi1]
      exact if_neg (hne p (List.mem_cons_self p ps))
    rw [ih st1 st' hrest hl1 i hi1 h2 hio fun q hq => hne q (List.mem_cons.mpr (Or.inr hq)),
      hkeep]

theorem runPairs_ok_cover (origins : List Nat) :
    ∀ (ps : List (Nat × Nat)) (st st' : List Int × List Nat),
      List.foldlM (assignOrigin origins) st ps = .ok st' → st.1.length = origins.length →
      ∀ p ∈ ps, ∀ i (h1 : i < origins.length) (h2 : i < st'.1.length),
        origins[i] = p.2 → 0 ≤ st'.1[i] := by
  intro ps
  induction ps with
  | nil => intro st st' h hl p hp; simp at hp
  | cons q ps ih =>
    intro st st' h hl p hp i h1 h2 ho
    obtain ⟨st1, hstep, hrest⟩ := foldlM_ok_cons _ h
    obtain ⟨f, -, hlen1, -, hget, -⟩ := assignOrigin_ok_elim hstep
    have hl1 : st1.1.length = origins.length := by omega
    rcases List.mem_cons.mp hp with rfl | hp'
    · have hif : i < st.1.length := by omega
      have hi1 : i < st1.1.length := by omega
      have hval : st1.1[i] = (f : Int) := by rw [hget i h1 hif hi1, if_pos ho]
      have hpos : (-1 : Int) < st1.1[i] := by
        rw [hval]
        exact lt_of_lt_of_le (by norm_num) (Int.ofNat_nonneg f)
      rw [runPairs_ok_mono origins ps st1 st' hrest hl1 i hi1 h2 hpos, hval]
      exact Int.ofNat_nonneg f
    · exact ih st1 st' hrest hl1 p hp' i h1 h2 ho

theorem runPairs_ok_eqPreserve (origins : List Nat) :
    ∀ (ps : List (Nat × Nat)) (st st' : List Int × List Nat),
      List.foldlM (assignOrigin origins) st ps = .ok st' → st.1.length = origins.length →
      ∀ i j (hi : i < st.1.length) (hj : j < st.1.length) (hi' : i < st'.1.length)
        (hj' : j < st'.1.length) (hio : i < origins.length) (hjo : j < origins.length),
        origins[i] = origins[j] → st.1[i] = st.1[j] → st'.1[i] = st'.1[j] := by
  intro ps
  induction ps with
  | nil =>
    intro st st' h hl i j hi hj hi' hj' hio hjo ho hv
    obtain rfl := foldlM_ok_nil _ h
    exact hv
  | cons p ps ih =>
    intro st st' h hl i j hi hj hi' hj' hio hjo ho hv
    obtain ⟨st1, hstep, hrest⟩ := foldlM_ok_cons _ h
    obtain ⟨f, -, hlen1, -, hget, -⟩ := assignOrigin_ok_elim hstep
    have hl1 : st1.1.length = origins.length := by omega
    have hi1 : i < st1.1.length := by omega
    have hj1 : j < st1.1.length := by omega
    refine ih st1 st' hrest hl1 i j hi1 hj1 hi' hj' hio hjo ho ?_ 
    rw [hget i hio hi hi1, hget j hjo hj hj1, ho, hv]

/-! ## Facts about `classOrigins` and `classPairs` -/

theorem classOrigins_nodup (labels origins : List Nat) (lab : Nat) :
    (classOrigins labels origins lab).Nodup := uniqueSorted_nodup _

theorem mem_classOrigins (labels origins : List Nat) (lab o : Nat) :
    o ∈ classOrigins labels origins lab ↔
      ∃ i, ∃ (h1 : i < labels.length) (h2 : i < origins.length),
        labels[i] = lab ∧ origins[i] = o := by
  unfold classOrigins
  rw [mem_uniqueSorted, List.mem_filterMap]
  constructor
  · rintro ⟨lo, hmem, heq⟩
    by_cases hc : lo.1 = lab
    · rw [if_pos hc] at heq
      rcases List.mem_iff_getElem.mp hmem with ⟨i, hi, he⟩
      have h1 : i < labels.length := by rw [List.length_zip] at hi; omega
      have h2 : i < origins.length := by rw [List.length_zip] at hi; omega
      rw [List.getElem_zip] at he
      refine ⟨i, h1, h2, ?_, ?_⟩
      · exact (congrArg Prod.fst he).trans hc
      · exact (congrArg Prod.snd he).trans (Option.some.inj heq)
    · rw [if_neg hc] at heq; exact absurd heq (by simp)
  · rintro ⟨i, h1, h2, hl, ho⟩
    refine ⟨(lab, o), ?_, by simp⟩
    refine List.mem_iff_getElem.mpr ⟨i, by rw [List.length_zip]; omega, ?_⟩
    rw [List.getElem_zip]
    rw [show labels[i] = lab from hl, show origins[i] = o from ho]

theorem zip_classWeights (origins : List Nat) :
    ∀ us : List Nat, (classWeights origins us).zip us = us.map fun o => (List.count o origins, o)
  | [] => rfl
  | u :: us => by
    show ((List.count u origins) :: classWeights origins us).zip (u :: us) = _
    rw [List.zip_cons_cons, zip_classWeights origins us]
    rfl

theorem classPairs_perm (labels origins : List Nat) (lab : Nat) :
    (classPairs labels origins lab).Perm
      ((classOrigins labels origins lab).map fun o => (List.count o origins, o)) := by
  unfold classPairs
  rw [zip_classWeights]
  exact List.perm_insertionSort _ _

theorem mem_classPairs_of_mem (labels origins : List Nat) (lab o : Nat)
    (h : o ∈ classOrigins labels origins lab) :
    (List.count o origins, o) ∈ classPairs labels origins lab :=
  (classPairs_perm labels origins lab).mem_iff.mpr (List.mem_map.mpr ⟨o, h, rfl⟩)

theorem snd_of_mem_classPairs (labels origins : List Nat) (lab : Nat) (p : Nat × Nat)
    (h : p ∈ classPairs labels origins lab) : p.2 ∈ classOrigins labels origins lab := by
  rcases List.mem_map.mp ((classPairs_perm labels origins lab).mem_iff.mp h) with ⟨o, ho, he⟩
  rw [← he]
  exact ho

theorem classPairs_snd_nodup (labels origins : List Nat) (lab : Nat) :
    ((classPairs labels origins lab).map Prod.snd).Nodup := by
  have hp := (classPairs_perm labels origins lab).map Prod.snd
  rw [List.map_map] at hp
  have hid : (Prod.snd ∘ fun o : Nat => (List.count o origins, o)) = id := rfl
  rw [hid, List.map_id] at hp
  exact hp.nodup_iff.mpr (classOrigins_nodup labels origins lab)

/-! ## Error and success analysis of the inner loop -/

theorem assignOrigin_ok_intro (origins : List Nat) (st : List Int × List Nat) (p : Nat × Nat)
    (f : Nat) (harg : argmin st.2 = some f)
    (hc : ¬((origins.zip st.1).any fun q => q.1 == p.2 && decide ((-1 : Int) < q.2)) = true) :
    assignOrigin origins st p = .ok (assignFold origins p.2 f st.1, bumpWeight st.2 f p.1) := by
  unfold assignOrigin
  split
  next harg2 => rw [harg] at harg2; cases harg2
  next f2 harg2 =>
    rw [harg] at harg2
    obtain rfl := Option.some.inj harg2
    rw [if_neg hc]

theorem foldlM_nil_ne_error {σ α : Type} (f : σ → α → Except FoldError σ) {st : σ}
    {e : FoldError} : List.foldlM f st [] ≠ .error e := by
  rw [List.foldlM_nil]
  intro h
  exact absurd (show (Except.ok st : Except FoldError σ) = .error e from h) (by simp)

theorem runPairs_error_kind (origins : List Nat) :
    ∀ (ps : List (Nat × Nat)) (st : List Int × List Nat) (e : FoldError),
      List.foldlM (assignOrigin origins) st ps = .error e → st.2 ≠ [] →
      ∃ p ∈ ps, e = .inconsistentOrigin p.2 := by
  intro ps
  induction ps with
  | nil => intro st e h hne; exact absurd h (foldlM_nil_ne_error _)
  | cons p ps ih =>
    intro st e h hne
    rcases foldlM_error_cons _ h with hstep | ⟨st1, hstep, hrest⟩
    · rcases assignOrigin_error_elim hstep with ⟨hnil, -⟩ | ⟨he, -⟩
      · exact absurd hnil hne
      · exact ⟨p, List.mem_cons_self p ps, he⟩
    · obtain ⟨f, -, -, he2, -, -⟩ := assignOrigin_ok_elim hstep
      have hne1 : st1.2 ≠ [] := by
        intro hc
        apply hne
        have := congrArg List.length hc
        rw [he2, length_bumpWeight] at this
        exact List.length_eq_zero.mp this
      obtain ⟨q, hq, he⟩ := ih st1 e hrest hne1
      exact ⟨q, List.mem_cons.mpr (Or.inr hq), he⟩

theorem runPairs_ok_provenance (origins : List Nat) (O : Nat → Prop) :
    ∀ (ps : List (Nat × Nat)) (st st' : List Int × List Nat),
      List.foldlM (assignOrigin origins) st ps = .ok st' → st.1.length = origins.length →
      (∀ p ∈ ps, O p.2) →
      (∀ i (h1 : i < origins.length) (h2 : i < st.1.length),
        (-1 : Int) < st.1[i] → O origins[i]) →
      ∀ i (h1 : i < origins.length) (h2 : i < st'.1.length),
        (-1 : Int) < st'.1[i] → O origins[i] := by
  intro ps
  induction ps with
  | nil =>
    intro st st' h hl hps hpre
    obtain rfl := foldlM_ok_nil _ h
    exact hpre
  | cons p ps ih =>
    intro st st' h hl hps hpre
    obtain ⟨st1, hstep, hrest⟩ := foldlM_ok_cons _ h
    obtain ⟨f, -, hlen1, -, hget, -⟩ := assignOrigin_ok_elim hstep
    have hl1 : st1.1.length = origins.length := by omega
    refine ih st1 st' hrest hl1 (fun r hr => hps r (List.mem_cons.mpr (Or.inr hr))) ?_ 
    intro i h1 h2 hv
    have hif : i < st.1.length := by omega
    rw [hget i h1 hif h2] at hv
    by_cases ho : origins[i] = p.2
    · rw [ho]
      exact hps p (List.mem_cons_self p ps)
    · rw [if_neg ho] at hv
      exact hpre i h1 hif hv

theorem runPairs_error_payload (origins : List Nat) :
    ∀ (ps : List (Nat × Nat)) (O : Nat → Prop) (st : List Int × List Nat) (o : Nat),
      List.foldlM (assignOrigin origins) st ps = .error (.inconsistentOrigin o) →
      st.1.length = origins.length →
      (ps.map Prod.snd).Nodup →
      (∀ i (h1 : i < origins.length) (h2 : i < st.1.length),
        (-1 : Int) < st.1[i] → O origins[i]) →
      O o ∧ o ∈ ps.map Prod.snd := by
  intro ps
  induction ps with
  | nil => intro O st o h hl hnd hpre; exact absurd h (foldlM_nil_ne_error _)
  | cons p ps ih =>
    intro O st o h hl hnd hpre
    rcases foldlM_error_cons _ h with hstep | ⟨st1, hstep, hrest⟩
    · rcases assignOrigin_error_elim hstep with ⟨-, he⟩ | ⟨he, j, h1, h2, ho, hv⟩
      · exact absurd he (by simp)
      · obtain rfl : o = p.2 := FoldError.inconsistentOrigin.inj he
        refine ⟨ho ▸ hpre j h1 h2 hv, ?_⟩
        rw [List.map_cons]
        exact List.mem_cons_self _ _
    · obtain ⟨f, -, hlen1, -, hget, -⟩ := assignOrigin_ok_elim hstep
      have hl1 : st1.1.length = origins.length := by omega
      rw [List.map_cons, List.nodup_cons] at hnd
      have hpre1 : ∀ i (h1 : i < origins.length) (h2 : i < st1.1.length),
          (-1 : Int) < st1.1[i] → (fun x => O x ∨ x = p.2) origins[i] := by
        intro i h1 h2 hv
        have hif : i < st.1.length := by omega
        rw [hget i h1 hif h2] at hv
        by_cases ho : origins[i] = p.2
        · exact Or.inr ho
        · rw [if_neg ho] at hv
          exact Or.inl (hpre i h1 hif hv)
      obtain ⟨hOo, hmem⟩ := ih (fun x => O x ∨ x = p.2) st1 o hrest hl1 hnd.2 hpre1
      have hne : o ≠ p.2 := by
        intro hc
        exact hnd.1 (hc ▸ hmem)
      rcases hOo with hOo | hc
      · exact ⟨hOo, List.mem_cons.mpr (Or.inr hmem)⟩
      · exact absurd hc hne

theorem runPairs_blocked (origins : List Nat) :
    ∀ (ps : List (Nat × Nat)) (st : List Int × List Nat) (p : Nat × Nat), p ∈ ps →
      st.1.length = origins.length →
      (∃ q, ∃ (h1 : q < origins.length) (h2 : q < st.1.length),
        origins[q] = p.2 ∧ (-1 : Int) < st.1[q]) →
      ∀ st', List.foldlM (assignOrigin origins) st ps ≠ .ok st' := by
  intro ps
  induction ps with
  | nil => intro st p hp; simp at hp
  | cons r ps ih =>
    intro st p hp hl ⟨q, h1, h2, ho, hv⟩ st' hok
    obtain ⟨st1, hstep, hrest⟩ := foldlM_ok_cons _ hok
    obtain ⟨f, -, hlen1, -, hget, hchk⟩ := assignOrigin_ok_elim hstep
    rcases List.mem_cons.mp hp with rfl | hp'
    · exact hchk q h1 h2 ho hv
    · have hl1 : st1.1.length = origins.length := by omega
      have hq1 : q < st1.1.length := by omega
      have hv1 : (-1 : Int) < st1.1[q] := by
        rw [hget q h1 h2 hq1]
        by_cases hoq : origins[q] = r.2
        · rw [if_pos hoq]
          exact lt_of_lt_of_le (by norm_num) (Int.ofNat_nonneg f)
        · rw [if_neg hoq]; exact hv
      exact ih st1 p hp' hl1 ⟨q, h1, hq1, ho, hv1⟩ st' hrest

theorem runPairs_ok_exists (origins : List Nat) :
    ∀ (ps : List (Nat × Nat)) (st : List Int × List Nat),
      st.1.length = origins.length → st.2 ≠ [] →
      (ps.map Prod.snd).Nodup →
      (∀ p ∈ ps, ∀ j (h1 : j < origins.length) (h2 : j < st.1.length),
        origins[j] = p.2 → st.1[j] = -1) →
      ∃ st', List.foldlM (assignOrigin origins) st ps = .ok st' := by
  intro ps
  induction ps with
  | nil => intro st hl hne hnd hpre; exact ⟨st, by rw [List.foldlM_nil]; rfl⟩
  | cons p ps ih =>
    intro st hl hne hnd hpre
    obtain ⟨f, harg⟩ := argmin_isSome st.2 hne
    have hc : ¬((origins.zip st.1).any fun q => q.1 == p.2 && decide ((-1 : Int) < q.2)) = true := by
      intro hc
      obtain ⟨j, h1, h2, ho, hv⟩ := (anyCheck_iff origins st.1 p.2).mp hc
      rw [hpre p (List.mem_cons_self p ps) j h1 h2 ho] at hv
      exact absurd hv (by norm_num)
    have hstep := assignOrigin_ok_intro origins st p f harg hc
    obtain ⟨f2, -, hlen1, he2, hget, -⟩ := assignOrigin_ok_elim hstep
    rw [List.map_cons, List.nodup_cons] at hnd
    have hl1 : (assignFold origins p.2 f st.1).length = origins.length := by
      rw [length_assignFold]; omega
    have hne1 : bumpWeight st.2 f p.1 ≠ [] := by
      intro hcon
      apply hne
      have := congrArg List.length hcon
      rw [length_bumpWeight] at this
      exact List.length_eq_zero.mp this
    have hpre1 : ∀ r ∈ ps, ∀ j (h1 : j < origins.length)
        (h2 : j < (assignFold origins p.2 f st.1).length),
        origins[j] = r.2 → (assignFold origins p.2 f st.1)[j] = -1 := by
      intro r hr j h1 h2 ho
      have hjf : j < st.1.length := by omega
      have hj1 : j < ((assignFold origins p.2 f st.1, bumpWeight st.2 f p.1) :
        List Int × List Nat).1.length := h2
      rw [hget j h1 hjf hj1]
      have hor : origins[j] ≠ p.2 := by
        rw [ho]
        intro hcon
        exact hnd.1 (hcon ▸ List.mem_map.mpr ⟨r, hr, rfl⟩)
      rw [if_neg hor]
      exact hpre r (List.mem_cons.mpr (Or.inr hr)) j h1 hjf ho
    obtain ⟨st', hst'⟩ :=
      ih (assignFold origins p.2 f st.1, bumpWeight st.2 f p.1) hl1 hne1 hnd.2 hpre1
    refine ⟨st', ?_⟩
    rw [List.foldlM_cons, hstep]
    exact hst'

/-! ## Lifting the inner-loop facts to `assignClass` -/

theorem assignClass_ok_elim {labels origins : List Nat} {nfolds : Nat} {fold fold' : List Int}
    {lab : Nat} (h : assignClass labels origins nfolds fold lab = .ok fold') :
    ∃ fw', List.foldlM (assignOrigin origins) (fold, List.replicate nfolds 0)
      (classPairs labels origins lab) = .ok (fold', fw') := by
  unfold assignClass at h
  split at h
  · exact absurd h (by simp)
  next st hst =>
    refine ⟨st.2, ?_⟩
    rw [hst]
    have h1 : st.1 = fold' := Except.ok.inj h
    rw [show (fold', st.2) = st from by rw [← h1]]

theorem assignClass_error_elim {labels origins : List Nat} {nfolds : Nat} {fold : List Int}
    {lab : Nat} {e : FoldError} (h : assignClass labels origins nfolds fold lab = .error e) :
    List.foldlM (assignOrigin origins) (fold, List.replicate nfolds 0)
      (classPairs labels origins lab) = .error e := by
  unfold assignClass at h
  split at h
  next e2 hst => rw [← Except.error.inj h]; exact hst
  next st hst => exact absurd h (by simp)

theorem assignClass_ok_lengths {labels origins : List Nat} {nfolds : Nat} {fold fold' : List Int}
    {lab : Nat} (h : assignClass labels origins nfolds fold lab = .ok fold')
    (hl : fold.length = origins.length) : fold'.length = origins.length := by
  obtain ⟨fw', hrun⟩ := assignClass_ok_elim h
  exact (runPairs_ok_lengths origins _ _ _ hrun hl).1

theorem assignClass_ok_mono {labels origins : List Nat} {nfolds : Nat} {fold fold' : List Int}
    {lab : Nat} (h : assignClass labels origins nfolds fold lab = .ok fold')
    (hl : fold.length = origins.length) :
    ∀ i (h1 : i < fold.length) (h2 : i < fold'.length),
      (-1 : Int) < fold[i] → fold'[i] = fold[i] := by
  obtain ⟨fw', hrun⟩ := assignClass_ok_elim h
  exact runPairs_ok_mono origins _ _ _ hrun hl

theorem assignClass_ok_range {labels origins : List Nat} {nfolds : Nat} {fold fold' : List Int}
    {lab : Nat} (h : assignClass labels origins nfolds fold lab = .ok fold')
    (hl : fold.length = origins.length)
    (hr : ∀ i (h : i < fold.length), fold[i] = -1 ∨ (0 ≤ fold[i] ∧ fold[i] < (nfolds : Int))) :
    ∀ i (h : i < fold'.length), fold'[i] = -1 ∨ (0 ≤ fold'[i] ∧ fold'[i] < (nfolds : Int)) := by
  obtain ⟨fw', hrun⟩ := assignClass_ok_elim h
  exact runPairs_ok_range origins nfolds _ _ _ hrun hl (List.length_replicate nfolds 0) hr

theorem assignClass_ok_eqPreserve {labels origins : List Nat} {nfolds : Nat}
    {fold fold' : List Int} {lab : Nat} (h : assignClass labels origins nfolds fold lab = .ok fold')
    (hl : fold.length = origins.length) :
    ∀ i j (hi : i < fold.length) (hj : j < fold.length) (hi' : i < fold'.length)
      (hj' : j < fold'.length) (hio : i < origins.length) (hjo : j < origins.length),
      origins[i] = origins[j] → fold[i] = fold[j] → fold'[i] = fold'[j] := by
  obtain ⟨fw', hrun⟩ := assignClass_ok_elim h
  exact runPairs_ok_eqPreserve origins _ _ _ hrun hl

theorem assignClass_ok_cover {labels origins : List Nat} {nfolds : Nat} {fold fold' : List Int}
    {lab o : Nat} (h : assignClass labels origins nfolds fold lab = .ok fold')
    (hl : fold.length = origins.length) (ho : o ∈ classOrigins labels origins lab) :
    ∀ i (h1 : i < origins.length) (h2 : i < fold'.length), origins[i] = o → 0 ≤ fold'[i] := by
  obtain ⟨fw', hrun⟩ := assignClass_ok_elim h
  exact runPairs_ok_cover origins _ _ _ hrun hl _ (mem_classPairs_of_mem labels origins lab o ho)

theorem assignClass_ok_frame {labels origins : List Nat} {nfolds : Nat} {fold fold' : List Int}
    {lab : Nat} (h : assignClass labels origins nfolds fold lab = .ok fold')
    (hl : fold.length = origins.length) :
    ∀ i (h1 : i < fold.length) (h2 : i < fold'.length) (hio : i < origins.length),
      origins[i] ∉ classOrigins labels origins lab → fold'[i] = fold[i] := by
  obtain ⟨fw', hrun⟩ := assignClass_ok_elim h
  intro i h1 h2 hio hno
  refine runPairs_ok_frame origins _ _ _ hrun hl i h1 h2 hio ?_
  intro p hp hc
  exact hno (hc ▸ snd_of_mem_classPairs labels origins lab p hp)

theorem assignClass_ok_provenance {labels origins : List Nat} {nfolds : Nat}
    {fold fold' : List Int} {lab : Nat} (O : Nat → Prop)
    (h : assignClass labels origins nfolds fold lab = .ok fold')
    (hl : fold.length = origins.length)
    (hco : ∀ x ∈ classOrigins labels origins lab, O x)
    (hpre : ∀ i (h1 : i < origins.length) (h2 : i < fold.length),
      (-1 : Int) < fold[i] → O origins[i]) :
    ∀ i (h1 : i < origins.length) (h2 : i < fold'.length),
      (-1 : Int) < fold'[i] → O origins[i] := by
  obtain ⟨fw', hrun⟩ := assignClass_ok_elim h
  exact runPairs_ok_provenance origins O _ _ _ hrun hl
    (fun p hp => hco p.2 (snd_of_mem_classPairs labels origins lab p hp)) hpre

theorem assignClass_error_kind {labels origins : List Nat} {nfolds : Nat} {fold : List Int}
    {lab : Nat} {e : FoldError} (h : assignClass labels origins nfolds fold lab = .error e)
    (hnf : 1 ≤ nfolds) : ∃ o ∈ classOrigins labels origins lab, e = .inconsistentOrigin o := by
  have hrun := assignClass_error_elim h
  have hne : (List.replicate nfolds 0 : List Nat) ≠ [] := by
    intro hc
    have := congrArg List.length hc
    rw [List.length_replicate, List.length_nil] at this
    omega
  obtain ⟨p, hp, he⟩ := runPairs_error_kind origins _ _ _ hrun hne
  exact ⟨p.2, snd_of_mem_classPairs labels origins lab p hp, he⟩

theorem assignClass_error_payload {labels origins : List Nat} {nfolds : Nat} {fold : List Int}
    {lab o : Nat} (O : Nat → Prop)
    (h : assignClass labels origins nfolds fold lab = .error (.inconsistentOrigin o))
    (hl : fold.length = origins.length)
    (hpre : ∀ i (h1 : i < origins.length) (h2 : i < fold.length),
      (-1 : Int) < fold[i] → O origins[i]) :
    O o ∧ o ∈ classOrigins labels origins lab := by
  have hrun := assignClass_error_elim h
  obtain ⟨hO, hmem⟩ := runPairs_error_payload origins _ O _ o hrun hl
    (classPairs_snd_nodup labels origins lab) hpre
  rcases List.mem_map.mp hmem with ⟨p, hp, he⟩
  exact ⟨hO, he ▸ snd_of_mem_classPairs labels origins lab p hp⟩

theorem assignClass_blocked {labels origins : List Nat} {nfolds : Nat} {fold : List Int}
    {lab o : Nat} (hl : fold.length = origins.length)
    (ho : o ∈ classOrigins labels origins lab)
    (hw : ∃ q, ∃ (h1 : q < origins.length) (h2 : q < fold.length),
      origins[q] = o ∧ (-1 : Int) < fold[q]) :
    ∀ fold', assignClass labels origins nfolds fold lab ≠ .ok fold' := by
  intro fold' h
  obtain ⟨fw', hrun⟩ := assignClass_ok_elim h
  exact runPairs_blocked origins _ _ _ (mem_classPairs_of_mem labels origins lab o ho) hl hw
    (fold', fw') hrun

theorem assignClass_ok_exists {labels origins : List Nat} {nfolds : Nat} {fold : List Int}
    {lab : Nat} (hl : fold.length = origins.length) (hnf : 1 ≤ nfolds)
    (hpre : ∀ o ∈ classOrigins labels origins lab, ∀ j (h1 : j < origins.length)
      (h2 : j < fold.length), origins[j] = o → fold[j] = -1) :
    ∃ fold', assignClass labels origins nfolds fold lab = .ok fold' := by
  have hne : (List.replicate nfolds 0 : List Nat) ≠ [] := by
    intro hc
    have := congrArg List.length hc
    rw [List.length_replicate, List.length_nil] at this
    omega
  obtain ⟨st', hst'⟩ := runPairs_ok_exists origins (classPairs labels origins lab)
    (fold, List.replicate nfolds 0) hl hne (classPairs_snd_nodup labels origins lab)
    (fun p hp => hpre p.2 (snd_of_mem_classPairs labels origins lab p hp))
  refine ⟨st'.1, ?_⟩
  unfold assignClass
  rw [hst']

/-! ## Lifting to the loop over classes -/

theorem runClasses_ok_lengths (labels origins : List Nat) (nfolds : Nat) :
    ∀ (cs : List Nat) (fold fold' : List Int),
      List.foldlM (assignClass labels origins nfolds) fold cs = .ok fold' →
      fold.length = origins.length → fold'.length = origins.length := by
  intro cs
  induction cs with
  | nil => intro fold fold' h hl; obtain rfl := foldlM_ok_nil _ h; exact hl
  | cons c cs ih =>
    intro fold fold' h hl
    obtain ⟨fold1, hstep, hrest⟩ := foldlM_ok_cons _ h
    exact ih fold1 fold' hrest (assignClass_ok_lengths hstep hl)

theorem runClasses_ok_mono (labels origins : List Nat) (nfolds : Nat) :
    ∀ (cs : List Nat) (fold fold' : List Int),
      List.foldlM (assignClass labels origins nfolds) fold cs = .ok fold' →
      fold.length = origins.length →
      ∀ i (h1 : i < fold.length) (h2 : i < fold'.length),
        (-1 : Int) < fold[i] → fold'[i] = fold[i] := by
  intro cs
  induction cs with
  | nil => intro fold fold' h hl i h1 h2 hv; obtain rfl := foldlM_ok_nil _ h; rfl
  | cons c cs ih =>
    intro fold fold' h hl i h1 h2 hv
    obtain ⟨fold1, hstep, hrest⟩ := foldlM_ok_cons _ h
    have hl1 := assignClass_ok_lengths hstep hl
    have hi1 : i < fold1.length := by omega
    have hkeep := assignClass_ok_mono hstep hl i h1 hi1 hv
    rw [ih fold1 fold' hrest hl1 i hi1 h2 (by rw [hkeep]; exact hv), hkeep]

theorem runClasses_ok_range (labels origins : List Nat) (nfolds : Nat) :
    ∀ (cs : List Nat) (fold fold' : List Int),
      List.foldlM (assignClass labels origins nfolds) fold cs = .ok fold' →
      fold.length = origins.length →
      (∀ i (h : i < fold.length), fold[i] = -1 ∨ (0 ≤ fold[i] ∧ fold[i] < (nfolds : Int))) →
      ∀ i (h : i < fold'.length), fold'[i] = -1 ∨ (0 ≤ fold'[i] ∧ fold'[i] < (nfolds : Int)) := by
  intro cs
  induction cs with
  | nil => intro fold fold' h hl hr; obtain rfl := foldlM_ok_nil _ h; exact hr
  | cons c cs ih =>
    intro fold fold' h hl hr
    obtain ⟨fold1, hstep, hrest⟩ := foldlM_ok_cons _ h
    exact ih fold1 fold' hrest (assignClass_ok_lengths hstep hl)
      (assignClass_ok_range hstep hl hr)

theorem runClasses_ok_eqPreserve (labels origins : List Nat) (nfolds : Nat) :
    ∀ (cs : List Nat) (fold fold' : List Int),
      List.foldlM (assignClass labels origins nfolds) fold cs = .ok fold' →
      fold.length = origins.length →
      ∀ i j (hi : i < fold.length) (hj : j < fold.length) (hi' : i < fold'.length)
        (hj' : j < fold'.length) (hio : i < origins.length) (hjo : j < origins.length),
        origins[i] = origins[j] → fold[i] = fold[j] → fold'[i] = fold'[j] := by
  intro cs
  induction cs with
  | nil =>
    intro fold fold' h hl i j hi hj hi' hj' hio hjo ho hv
    obtain rfl := foldlM_ok_nil _ h
    exact hv
  | cons c cs ih =>
    intro fold fold' h hl i j hi hj hi' hj' hio hjo ho hv
    obtain ⟨fold1, hstep, hrest⟩ := foldlM_ok_cons _ h
    have hl1 := assignClass_ok_lengths hstep hl
    have hi1 : i < fold1.length := by omega
    have hj1 : j < fold1.length := by omega
    exact ih fold1 fold' hrest hl1 i j hi1 hj1 hi' hj' hio hjo ho
      (assignClass_ok_eqPreserve hstep hl i j hi hj hi1 hj1 hio hjo ho hv)

theorem runClasses_ok_cover (labels origins : List Nat) (nfolds : Nat) :
    ∀ (cs : List Nat) (fold fold' : List Int),
      List.foldlM (assignClass labels origins nfolds) fold cs = .ok fold' →
      fold.length = origins.length →
      ∀ lab ∈ cs, ∀ o ∈ classOrigins labels origins lab,
        ∀ i (h1 : i < origins.length) (h2 : i < fold'.length),
          origins[i] = o → 0 ≤ fold'[i] := by
  intro cs
  induction cs with
  | nil => intro fold fold' h hl lab hlab; simp at hlab
  | cons c cs ih =>
    intro fold fold' h hl lab hlab o ho i h1 h2 hoi
    obtain ⟨fold1, hstep, hrest⟩ := foldlM_ok_cons _ h
    have hl1 := assignClass_ok_lengths hstep hl
    rcases List.mem_cons.mp hlab with rfl | hlab'
    · have hi1 : i < fold1.length := by omega
      have hcov := assignClass_ok_cover hstep hl ho i h1 hi1 hoi
      have hkeep := runClasses_ok_mono labels origins nfolds cs fold1 fold' hrest hl1 i hi1 h2
        (by omega)
      omega
    · exact ih fold1 fold' hrest hl1 lab hlab' o ho i h1 h2 hoi

theorem runClasses_error_kind (labels origins : List Nat) (nfolds : Nat) :
    ∀ (cs : List Nat) (fold : List Int) (e : FoldError),
      List.foldlM (assignClass labels origins nfolds) fold cs = .error e → 1 ≤ nfolds →
      ∃ o, e = .inconsistentOrigin o ∧ ∃ lab ∈ cs, o ∈ classOrigins labels origins lab := by
  intro cs
  induction cs with
  | nil => intro fold e h hnf; exact absurd h (foldlM_nil_ne_error _)
  | cons c cs ih =>
    intro fold e h hnf
    rcases foldlM_error_cons _ h with hstep | ⟨fold1, hstep, hrest⟩
    · obtain ⟨o, ho, he⟩ := assignClass_error_kind hstep hnf
      exact ⟨o, he, c, List.mem_cons_self c cs, ho⟩
    · obtain ⟨o, he, lab, hlab, ho⟩ := ih fold1 e hrest hnf
      exact ⟨o, he, lab, List.mem_cons.mpr (Or.inr hlab), ho⟩

theorem runClasses_error_payload (labels origins : List Nat) (nfolds : Nat) :
    ∀ (cs : List Nat) (O : Nat → Prop) (fold : List Int) (o : Nat),
      List.foldlM (assignClass labels origins nfolds) fold cs = .error (.inconsistentOrigin o) →
      fold.length = origins.length → cs.Nodup →
      (∀ i (h1 : i < origins.length) (h2 : i < fold.length),
        (-1 : Int) < fold[i] → O origins[i]) →
      ∃ lab ∈ cs, o ∈ classOrigins labels origins lab ∧
        (O o ∨ ∃ lab2 ∈ cs, lab2 ≠ lab ∧ o ∈ classOrigins labels origins lab2) := by
  intro cs
  induction cs with
  | nil => intro O fold o h hl hnd hpre; exact absurd h (foldlM_nil_ne_error _)
  | cons c cs ih =>
    intro O fold o h hl hnd hpre
    rw [List.nodup_cons] at hnd
    rcases foldlM_error_cons _ h with hstep | ⟨fold1, hstep, hrest⟩
    · obtain ⟨hO, hmem⟩ := assignClass_error_payload O hstep hl hpre
      exact ⟨c, List.mem_cons_self c cs, hmem, Or.inl hO⟩
    · have hl1 := assignClass_ok_lengths hstep hl
      have hpre1 := assignClass_ok_provenance
        (fun x => O x ∨ x ∈ classOrigins labels origins c) hstep hl
        (fun x hx => Or.inr hx) (fun i h1 h2 hv => Or.inl (hpre i h1 h2 hv))
      obtain ⟨lab, hlab, hmem, hside⟩ :=
        ih (fun x => O x ∨ x ∈ classOrigins labels origins c) fold1 o hrest hl1 hnd.2 hpre1
      refine ⟨lab, List.mem_cons.mpr (Or.inr hlab), hmem, ?_⟩
      rcases hside with hO | ⟨lab2, hlab2, hne2, hm2⟩
      · rcases hO with hO | hc
        · exact Or.inl hO
        · right
          refine ⟨c, List.mem_cons_self c cs, ?_, hc⟩
          intro hce
          exact hnd.1 (by rw [hce]; exact hlab)
      · exact Or.inr ⟨lab2, List.mem_cons.mpr (Or.inr hlab2), hne2, hm2⟩

theorem runClasses_blocked (labels origins : List Nat) (nfolds : Nat) :
    ∀ (cs : List Nat) (fold : List Int) (lab o : Nat), lab ∈ cs →
      o ∈ classOrigins labels origins lab → fold.length = origins.length →
      (∃ q, ∃ (h1 : q < origins.length) (h2 : q < fold.length),
        origins[q] = o ∧ (-1 : Int) < fold[q]) →
      ∀ fold', List.foldlM (assignClass labels origins nfolds) fold cs ≠ .ok fold' := by
  intro cs
  induction cs with
  | nil => intro fold lab o hlab; simp at hlab
  | cons c cs ih =>
    intro fold lab o hlab ho hl hw fold' hok
    obtain ⟨fold1, hstep, hrest⟩ := foldlM_ok_cons _ hok
    rcases List.mem_cons.mp hlab with rfl | hlab'
    · exact assignClass_blocked hl ho hw fold1 hstep
    · obtain ⟨q, h1, h2, hoq, hv⟩ := hw
      have hl1 := assignClass_ok_lengths hstep hl
      have hq1 : q < fold1.length := by omega
      have hkeep := assignClass_ok_mono hstep hl q h2 hq1 hv
      exact ih fold1 lab o hlab' ho hl1 ⟨q, h1, hq1, hoq, by rw [hkeep]; exact hv⟩ fold' hrest

theorem runClasses_ok_exists (labels origins : List Nat) (nfolds : Nat)
    (hdisj : ∀ c c' x, x ∈ classOrigins labels origins c →
      x ∈ classOrigins labels origins c' → c = c') :
    ∀ (cs : List Nat) (fold : List Int), cs.Nodup → fold.length = origins.length →
      1 ≤ nfolds →
      (∀ c ∈ cs, ∀ o ∈ classOrigins labels origins c, ∀ j (h1 : j < origins.length)
        (h2 : j < fold.length), origins[j] = o → fold[j] = -1) →
      ∃ fold', List.foldlM (assignClass labels origins nfolds) fold cs = .ok fold' := by
  intro cs
  induction cs with
  | nil => intro fold hnd hl hnf hpre; exact ⟨fold, by rw [List.foldlM_nil]; rfl⟩
  | cons c cs ih =>
    intro fold hnd hl hnf hpre
    rw [List.nodup_cons] at hnd
    obtain ⟨fold1, hstep⟩ :=
      assignClass_ok_exists hl hnf (hpre c (List.mem_cons_self c cs))
    have hl1 := assignClass_ok_lengths hstep hl
    have hpre1 : ∀ c' ∈ cs, ∀ o ∈ classOrigins labels origins c', ∀ j (h1 : j < origins.length)
        (h2 : j < fold1.length), origins[j] = o → fold1[j] = -1 := by
      intro c' hc' o ho j h1 h2 hoj
      have hjf : j < fold.length := by omega
      have hnc : origins[j] ∉ classOrigins labels origins c := by
        intro hmem
        have := hdisj c c' origins[j] hmem (hoj ▸ ho)
        exact hnd.1 (this ▸ hc')
      rw [assignClass_ok_frame hstep hl j hjf h2 h1 hnc]
      exact hpre c' (List.mem_cons.mpr (Or.inr hc')) o ho j h1 hjf hoj
    obtain ⟨fold', hrest⟩ := ih fold1 hnd.2 hl1 hnf hpre1
    refine ⟨fold', ?_⟩
    rw [List.foldlM_cons, hstep]
    exact hrest

/-! ## Consequences for `assignAll` -/

theorem exceptBind_ok_elim {σ τ : Type} {x : Except FoldError σ} {g : σ → Except FoldError τ}
    {r : τ} (h : (x >>= g) = .ok r) : ∃ s, x = .ok s ∧ g s = .ok r := by
  cases hx : x with
  | error e =>
    rw [hx] at h
    rw [show (Except.error e >>= g) = (Except.error e : Except FoldError τ) from rfl] at h
    exact absurd h (by simp)
  | ok s =>
    rw [hx] at h
    rw [show (Except.ok s >>= g) = g s from rfl] at h
    exact ⟨s, rfl, h⟩

theorem mem_split_pair (a b : Nat) (cs : List Nat) (ha : a ∈ cs) (hb : b ∈ cs) (hne : a ≠ b) :
    (∃ u v, cs = u ++ a :: v ∧ b ∈ v) ∨ (∃ u v, cs = u ++ b :: v ∧ a ∈ v) := by
  induction cs with
  | nil => simp at ha
  | cons c cs ih =>
    rcases List.mem_cons.mp ha with rfl | ha'
    · left
      refine ⟨[], cs, rfl, ?_⟩
      rcases List.mem_cons.mp hb with rfl | hb'
      · exact absurd rfl hne
      · exact hb'
    · rcases List.mem_cons.mp hb with rfl | hb'
      · exact Or.inr ⟨[], cs, rfl, ha'⟩
      · rcases ih ha' hb' with ⟨u, v, he, hm⟩ | ⟨u, v, he, hm⟩
        · exact Or.inl ⟨c :: u, v, by rw [he]; rfl, hm⟩
        · exact Or.inr ⟨c :: u, v, by rw [he]; rfl, hm⟩

theorem replicate_neg_getElem (n : Nat) (i : Nat) (h : i < (List.replicate n (-1 : Int)).length) :
    (List.replicate n (-1 : Int))[i] = -1 := List.getElem_replicate _ _

theorem assignAll_ok_main {labels origins : List Nat} {nfolds : Nat} {fold' : List Int}
    (h : assignAll labels origins nfolds = .ok fold') (hlen : labels.length = origins.length) :
    fold'.length = labels.length ∧
      ∀ i (hi : i < fold'.length), 0 ≤ fold'[i] ∧ fold'[i] < (nfolds : Int) := by
  unfold assignAll at h
  have hl0 : (List.replicate labels.length (-1 : Int)).length = origins.length := by
    rw [List.length_replicate]; exact hlen
  have hlen' := runClasses_ok_lengths labels origins nfolds _ _ _ h hl0
  refine ⟨by omega, ?_⟩
  intro i hi
  have hio : i < origins.length := by omega
  have hil : i < labels.length := by omega
  have hlabmem : labels[i] ∈ uniqueSorted labels :=
    (mem_uniqueSorted _ _).mpr (List.getElem_mem hil)
  have homem : origins[i] ∈ classOrigins labels origins labels[i] :=
    (mem_classOrigins labels origins labels[i] origins[i]).mpr ⟨i, hil, hio, rfl, rfl⟩
  have hcov := runClasses_ok_cover labels origins nfolds _ _ _ h hl0 labels[i] hlabmem
    origins[i] homem i hio hi rfl
  have hrange := runClasses_ok_range labels origins nfolds _ _ _ h hl0
    (fun j hj => Or.inl (replicate_neg_getElem _ j hj)) i hi
  rcases hrange with hneg | ⟨h0, hlt⟩
  · omega
  · exact ⟨h0, hlt⟩

theorem assignAll_ok_eq {labels origins : List Nat} {nfolds : Nat} {fold' : List Int}
    (h : assignAll labels origins nfolds = .ok fold') (hlen : labels.length = origins.length) :
    ∀ i j (hi' : i < fold'.length) (hj' : j < fold'.length) (hio : i < origins.length)
      (hjo : j < origins.length), origins[i] = origins[j] → fold'[i] = fold'[j] := by
  unfold assignAll at h
  have hl0 : (List.replicate labels.length (-1 : Int)).length = origins.length := by
    rw [List.length_replicate]; exact hlen
  intro i j hi' hj' hio hjo ho
  have hi0 : i < (List.replicate labels.length (-1 : Int)).length := by omega
  have hj0 : j < (List.replicate labels.length (-1 : Int)).length := by omega
  refine runClasses_ok_eqPreserve labels origins nfolds _ _ _ h hl0 i j hi0 hj0 hi' hj'
    hio hjo ho ?_
  rw [replicate_neg_getElem _ i hi0, replicate_neg_getElem _ j hj0]

theorem assignAll_error_kind {labels origins : List Nat} {nfolds : Nat} {e : FoldError}
    (h : assignAll labels origins nfolds = .error e) (hnf : 1 ≤ nfolds) :
    ∃ o, e = .inconsistentOrigin o := by
  unfold assignAll at h
  obtain ⟨o, he, -⟩ := runClasses_error_kind labels origins nfolds _ _ _ h hnf
  exact ⟨o, he⟩

theorem assignAll_error_spanning {labels origins : List Nat} {nfolds : Nat} {o : Nat}
    (h : assignAll labels origins nfolds = .error (.inconsistentOrigin o))
    (hlen : labels.length = origins.length) :
    ∃ p q, ∃ (hp : p < labels.length) (hq : q < labels.length) (hpo : p < origins.length)
      (hqo : q < origins.length),
      origins[p] = o ∧ origins[q] = o ∧ labels[p] ≠ labels[q] := by
  unfold assignAll at h
  have hl0 : (List.replicate labels.length (-1 : Int)).length = origins.length := by
    rw [List.length_replicate]; exact hlen
  obtain ⟨lab, -, hmem, hside⟩ := runClasses_error_payload labels origins nfolds _
    (fun _ => False) _ o h hl0 (uniqueSorted_nodup labels)
    (fun i h1 h2 hv => absurd hv (by rw [replicate_neg_getElem _ i h2]; omega))
  rcases hside with hF | ⟨lab2, -, hne2, hm2⟩
  · exact absurd hF (fun hc => hc)
  · obtain ⟨p, hp, hpo, hpl, hpor⟩ := (mem_classOrigins labels origins lab o).mp hmem
    obtain ⟨q, hq, hqo, hql, hqor⟩ := (mem_classOrigins labels origins lab2 o).mp hm2
    refine ⟨p, q, hp, hq, hpo, hqo, hpor, hqor, ?_⟩
    rw [hpl, hql]
    exact fun hc => hne2 hc.symm

theorem assignAll_not_ok {labels origins : List Nat} (nfolds : Nat) {i j : Nat}
    (hlen : labels.length = origins.length) (hi : i < labels.length) (hj : j < labels.length)
    (hio : i < origins.length) (hjo : j < origins.length)
    (ho : origins[i] = origins[j]) (hne : labels[i] ≠ labels[j]) :
    ∀ fold', assignAll labels origins nfolds ≠ .ok fold' := by
  intro fold' hok
  have hA : labels[i] ∈ uniqueSorted labels := (mem_uniqueSorted _ _).mpr (List.getElem_mem hi)
  have hB : labels[j] ∈ uniqueSorted labels := (mem_uniqueSorted _ _).mpr (List.getElem_mem hj)
  have hoi : origins[i] ∈ classOrigins labels origins labels[i] :=
    (mem_classOrigins labels origins labels[i] origins[i]).mpr ⟨i, hi, hio, rfl, rfl⟩
  have hoj : origins[i] ∈ classOrigins labels origins labels[j] :=
    (mem_classOrigins labels origins labels[j] origins[i]).mpr ⟨j, hj, hjo, rfl, ho.symm⟩
  unfold assignAll at hok
  have main : ∀ (a b : Nat) (u v : List Nat), uniqueSorted labels = u ++ a :: v → b ∈ v →
      origins[i] ∈ classOrigins labels origins a → origins[i] ∈ classOrigins labels origins b →
      False := by
    intro a b u v hsplit hbv hca hcb
    rw [hsplit, List.foldlM_append] at hok
    obtain ⟨fu, hu, hav⟩ := exceptBind_ok_elim hok
    obtain ⟨fa, hstep, hv⟩ := foldlM_ok_cons _ hav
    have hl0 : (List.replicate labels.length (-1 : Int)).length = origins.length := by
      rw [List.length_replicate]; exact hlen
    have hlu := runClasses_ok_lengths labels origins nfolds _ _ _ hu hl0
    have hla := assignClass_ok_lengths hstep hlu
    have hia : i < fa.length := by omega
    have hcov := assignClass_ok_cover hstep hlu hca i hio hia rfl
    exact runClasses_blocked labels origins nfolds v fa b origins[i] hbv hcb hla
      ⟨i, hio, hia, rfl, by omega⟩ fold' hv
  rcases mem_split_pair labels[i] labels[j] (uniqueSorted labels) hA hB hne with
    ⟨u, v, hsplit, hbv⟩ | ⟨u, v, hsplit, hbv⟩
  · exact main labels[i] labels[j] u v hsplit hbv hoi hoj
  · exact main labels[j] labels[i] u v hsplit hbv hoj hoi

theorem assignAll_ok_exists {labels origins : List Nat} {nfolds : Nat}
    (hlen : labels.length = origins.length) (hnf : 1 ≤ nfolds)
    (hdisj : ∀ c c' x, x ∈ classOrigins labels origins c →
      x ∈ classOrigins labels origins c' → c = c') :
    ∃ fold', assignAll labels origins nfolds = .ok fold' := by
  unfold assignAll
  refine runClasses_ok_exists labels origins nfolds hdisj (uniqueSorted labels) _
    (uniqueSorted_nodup labels) (by rw [List.length_replicate]; exact hlen) hnf ?_
  intro c hc o ho j h1 h2 hoj
  exact replicate_neg_getElem _ j h2

/-! ## Plumbing: `foldgeneratorCore`, `normaliselabels`, mask accessors -/

/-- The test-mask bit for sample `i` of the `k`-th yielded pair. -/
def testAt (pairs : List (List Bool × List Bool)) (k i : Nat) : Bool :=
  (pairs.getD k ([], [])).2.getD i false

/-- The train-mask bit for sample `i` of the `k`-th yielded pair. -/
def trainAt (pairs : List (List Bool × List Bool)) (k i : Nat) : Bool :=
  (pairs.getD k ([], [])).1.getD i false

theorem getD_lt {α : Type} (l : List α) (d : α) (i : Nat) (h : i < l.length) :
    l.getD i d = l[i] := by
  rw [List.getD_eq_getElem?_getD, List.getElem?_eq_getElem h]
  rfl

theorem testAt_masks (nfolds : Nat) (fold : List Int) (k i : Nat) (hk : k < nfolds)
    (hi : i < fold.length) :
    testAt (masks nfolds fold) k i = decide (fold[i] = (k : Int)) := by
  unfold testAt
  rw [getD_lt _ _ k (by rw [length_masks]; exact hk),
    getElem_masks nfolds fold k (by rw [length_masks]; exact hk)]
  rw [getD_lt _ _ i (by rw [List.length_map]; exact hi), List.getElem_map]

theorem trainAt_masks (nfolds : Nat) (fold : List Int) (k i : Nat) (hk : k < nfolds)
    (hi : i < fold.length) :
    trainAt (masks nfolds fold) k i = decide (fold[i] ≠ (k : Int)) := by
  unfold trainAt
  rw [getD_lt _ _ k (by rw [length_masks]; exact hk),
    getElem_masks nfolds fold k (by rw [length_masks]; exact hk)]
  rw [getD_lt _ _ i (by rw [List.length_map]; exact hi), List.getElem_map]

theorem core_ok_intro {labels origins : List Nat} {nfolds? : Option Nat}
    (hf : fminAux labels origins ≠ 1) {fold : List Int}
    (ha : assignAll labels origins (resolveNfolds (fminAux labels origins) nfolds?).1 = .ok fold) :
    foldgeneratorCore labels origins nfolds? =
      .ok (masks (resolveNfolds (fminAux labels origins) nfolds?).1 fold) := by
  unfold foldgeneratorCore
  rw [if_neg hf, ha]

theorem core_ok_elim {labels origins : List Nat} {nfolds? : Option Nat}
    {pairs : List (List Bool × List Bool)}
    (h : foldgeneratorCore labels origins nfolds? = .ok pairs) :
    fminAux labels origins ≠ 1 ∧
      ∃ fold, assignAll labels origins (resolveNfolds (fminAux labels origins) nfolds?).1 =
          .ok fold ∧
        pairs = masks (resolveNfolds (fminAux labels origins) nfolds?).1 fold := by
  unfold foldgeneratorCore at h
  by_cases hf : fminAux labels origins = 1
  · rw [if_pos hf] at h; exact absurd h (by simp)
  · rw [if_neg hf] at h
    refine ⟨hf, ?_⟩
    split at h
    · exact absurd h (by simp)
    next fold ha => exact ⟨fold, ha, (Except.ok.inj h).symm⟩

theorem core_error_elim {labels origins : List Nat} {nfolds? : Option Nat} {e : FoldError}
    (h : foldgeneratorCore labels origins nfolds? = .error e) :
    (fminAux labels origins = 1 ∧ e = .insufficientOrigins) ∨
      (fminAux labels origins ≠ 1 ∧
        assignAll labels origins (resolveNfolds (fminAux labels origins) nfolds?).1 =
          .error e) := by
  unfold foldgeneratorCore at h
  by_cases hf : fminAux labels origins = 1
  · rw [if_pos hf] at h
    exact Or.inl ⟨hf, (Except.error.inj h).symm⟩
  · rw [if_neg hf] at h
    refine Or.inr ⟨hf, ?_⟩
    split at h
    next e2 ha => rw [← Except.error.inj h]; exact ha
    next fold ha => exact absurd h (by simp)

theorem foldgenerator_eq_core (labels0 : List Nat) (nfolds? : Option Nat)
    (origins? : Option (List Nat)) (hsz : sizeOk labels0 origins?) :
    foldgenerator labels0 nfolds? origins? =
      foldgeneratorCore (normaliselabels labels0).1 (resolveOrigins labels0.length origins?)
        nfolds? := by
  cases origins? with
  | none => rfl
  | some o =>
    show (if o.length = labels0.length
        then foldgeneratorCore (normaliselabels labels0).1 o nfolds?
        else Except.error FoldError.sizeMismatch) = _
    rw [if_pos (show o.length = labels0.length from hsz)]
    rfl

theorem normaliselabels_length (labels0 : List Nat) :
    (normaliselabels labels0).1.length = labels0.length := by
  unfold normaliselabels
  exact List.length_map _ _

theorem normaliselabels_getElem (labels0 : List Nat) (i : Nat) (hi : i < labels0.length)
    {h2 : i < (normaliselabels labels0).1.length} :
    (normaliselabels labels0).1[i] = List.indexOf labels0[i] (uniqueSorted labels0) := by
  unfold normaliselabels
  rw [List.getElem_map]

theorem normaliselabels_eq_iff (labels0 : List Nat) (i j : Nat) (hi : i < labels0.length)
    (hj : j < labels0.length) {hi2 : i < (normaliselabels labels0).1.length}
    {hj2 : j < (normaliselabels labels0).1.length} :
    (normaliselabels labels0).1[i] = (normaliselabels labels0).1[j] ↔
      labels0[i] = labels0[j] := by
  rw [normaliselabels_getElem labels0 i hi, normaliselabels_getElem labels0 j hj]
  exact List.indexOf_inj ((mem_uniqueSorted _ _).mpr (List.getElem_mem hi))
    ((mem_uniqueSorted _ _).mpr (List.getElem_mem hj))

theorem classPure_getElem {labels0 origins : List Nat}
    (hp : classPure labels0 origins) (hlen : labels0.length = origins.length) :
    ∀ i j (hi : i < labels0.length) (hj : j < labels0.length) (hio : i < origins.length)
      (hjo : j < origins.length), origins[i] = origins[j] → labels0[i] = labels0[j] := by
  intro i j hi hj hio hjo ho
  have := hp i hi j hj
  rw [getD_lt origins 0 i hio, getD_lt origins 0 j hjo, getD_lt labels0 0 i hi,
    getD_lt labels0 0 j hj] at this
  exact this ho

theorem disjoint_of_classPure {labels0 origins : List Nat}
    (hlen : labels0.length = origins.length) (hp : classPure labels0 origins) :
    ∀ c c' x, x ∈ classOrigins (normaliselabels labels0).1 origins c →
      x ∈ classOrigins (normaliselabels labels0).1 origins c' → c = c' := by
  intro c c' x hc hc'
  obtain ⟨p, hp1, hp2, hpl, hpo⟩ :=
    (mem_classOrigins (normaliselabels labels0).1 origins c x).mp hc
  obtain ⟨q, hq1, hq2, hql, hqo⟩ :=
    (mem_classOrigins (normaliselabels labels0).1 origins c' x).mp hc'
  have hpn : p < labels0.length := by rw [normaliselabels_length] at hp1; exact hp1
  have hqn : q < labels0.length := by rw [normaliselabels_length] at hq1; exact hq1
  have hraw : labels0[p] = labels0[q] :=
    classPure_getElem hp hlen p q hpn hqn hp2 hq2 (by rw [hpo, hqo])
  rw [← hpl, ← hql]
  exact (normaliselabels_eq_iff labels0 p q hpn hqn).mpr hraw

theorem resolveNfolds_pos (fmin : Nat) (nfolds? : Option Nat) (hf : 2 ≤ fmin)
    (hn : nfoldsPos nfolds?) : 1 ≤ (resolveNfolds fmin nfolds?).1 := by
  cases nfolds? with
  | none =>
    show 1 ≤ min fmin 10
    omega
  | some n =>
    have hn' : 1 ≤ n := hn
    show 1 ≤ (if fmin < n then (fmin, true) else (n, false)).1
    by_cases hc : fmin < n
    · rw [if_pos hc]; show 1 ≤ fmin; omega
    · rw [if_neg hc]; show 1 ≤ n; omega

theorem resolveOrigins_length (labels0 : List Nat) (origins? : Option (List Nat))
    (hsz : sizeOk labels0 origins?) :
    (resolveOrigins labels0.length origins?).length = labels0.length := by
  cases origins? with
  | none => exact List.length_range _
  | some o => exact hsz

theorem resolveNfolds_clamp (fmin n : Nat) (h : fmin < n) :
    resolveNfolds fmin (some n) = (fmin, true) := by
  show (if fmin < n then (fmin, true) else (n, false)) = _
  rw [if_pos h]

theorem resolveNfolds_noclamp (fmin n : Nat) (h : ¬fmin < n) :
    resolveNfolds fmin (some n) = (n, false) := by
  show (if fmin < n then (fmin, true) else (n, false)) = _
  rw [if_neg h]

theorem core_error_intro {labels origins : List Nat} {nfolds? : Option Nat} {e : FoldError}
    (hf : fminAux labels origins ≠ 1)
    (ha : assignAll labels origins (resolveNfolds (fminAux labels origins) nfolds?).1 =
      .error e) :
    foldgeneratorCore labels origins nfolds? = .error e := by
  unfold foldgeneratorCore
  rw [if_neg hf, ha]

theorem foldgenerator_some_ok_size {labels0 origins : List Nat} {nfolds? : Option Nat}
    {pairs : List (List Bool × List Bool)}
    (h : foldgenerator labels0 nfolds? (some origins) = .ok pairs) :
    origins.length = labels0.length := by
  by_cases hsz : origins.length = labels0.length
  · exact hsz
  · exfalso
    have he : foldgenerator labels0 nfolds? (some origins) = .error .sizeMismatch := by
      show (if origins.length = labels0.length
          then foldgeneratorCore (normaliselabels labels0).1 origins nfolds?
          else Except.error FoldError.sizeMismatch) = _
      rw [if_neg hsz]
    rw [he] at h
    exact absurd h (by simp)

theorem mem_masks_lengths (nfolds : Nat) (fold : List Int) :
    ∀ p ∈ masks nfolds fold, p.1.length = fold.length ∧ p.2.length = fold.length := by
  intro p hp
  rcases List.mem_map.mp hp with ⟨f, -, he⟩
  rw [← he]
  exact ⟨List.length_map _ _, List.length_map _ _⟩

theorem bumpWeight_getD (fw : List Nat) (f w : Nat) (hf : f < fw.length) :
    (bumpWeight fw f w).getD f 0 = fw.getD f 0 + w ∧
      ∀ j, j ≠ f → (bumpWeight fw f w).getD j 0 = fw.getD j 0 := by
  constructor
  · rw [getD_lt _ _ f (by rw [length_bumpWeight]; exact hf)]
    unfold bumpWeight
    rw [List.getElem_set, if_pos rfl]
  · intro j hj
    by_cases hjl : j < fw.length
    · rw [getD_lt _ _ j (by rw [length_bumpWeight]; exact hjl), getD_lt _ _ j hjl]
      unfold bumpWeight
      rw [List.getElem_set, if_neg (fun hc => hj hc.symm)]
    · rw [List.getD_eq_default _ _ (by rw [length_bumpWeight]; omega),
        List.getD_eq_default _ _ (by omega)]

/-! ## The predictions buffer -/

theorem length_writeTest (pf1 : Nat → Nat) :
    ∀ (s : Nat) (ts : List Bool) (bs : List Int),
      (writeTest pf1 s ts bs).length = min ts.length bs.length := by
  intro s ts
  induction ts generalizing s with
  | nil => intro bs; simp [writeTest]
  | cons t ts ih =>
    intro bs
    cases bs with
    | nil => simp [writeTest]
    | cons b bs =>
      show (writeTest pf1 s (t :: ts) (b :: bs)).length = _
      unfold writeTest
      rw [List.length_cons, ih (s + 1) bs, List.length_cons, List.length_cons]
      omega

theorem getElem_writeTest (pf1 : Nat → Nat) :
    ∀ (s : Nat) (ts : List Bool) (bs : List Int) (j : Nat)
      (h : j < (writeTest pf1 s ts bs).length) (ht : j < ts.length) (hb : j < bs.length),
      (writeTest pf1 s ts bs)[j] = if ts[j] then ((pf1 (s + j) : Nat) : Int) else bs[j] := by
  intro s ts
  induction ts generalizing s with
  | nil => intro bs j h ht; simp at ht
  | cons t ts ih =>
    intro bs j h ht hb
    cases bs with
    | nil => simp at hb
    | cons b bs =>
      cases j with
      | zero => rfl
      | succ j =>
        have h' : j < (writeTest pf1 (s + 1) ts bs).length := by
          rw [length_writeTest] at h ⊢
          simp at h ⊢
          omega
        show (writeTest pf1 (s + 1) ts bs)[j] = _
        rw [ih (s + 1) bs j h' (by simpa using ht) (by simpa using hb)]
        rw [List.getElem_cons_succ, List.getElem_cons_succ]
        have : s + 1 + j = s + (j + 1) := by omega
        rw [this]

theorem predFold_spec (pf : Nat → Nat → Nat) (n : Nat) :
    ∀ (kps : List (Nat × (List Bool × List Bool))) (buf : List Int),
      (∀ kp ∈ kps, kp.2.2.length = n) → buf.length = n →
      (kps.foldl (fun b kp => writeTest (pf kp.1) 0 kp.2.2 b) buf).length = n ∧
      ∀ i (h : i < n),
        ((kps.foldl (fun b kp => writeTest (pf kp.1) 0 kp.2.2 b) buf).getD i 0 = buf.getD i 0 ∨
          ∃ k, (kps.foldl (fun b kp => writeTest (pf kp.1) 0 kp.2.2 b) buf).getD i 0 =
            ((pf k i : Nat) : Int)) ∧
        ((∃ kp ∈ kps, kp.2.2.getD i false = true) →
          ∃ k, (kps.foldl (fun b kp => writeTest (pf kp.1) 0 kp.2.2 b) buf).getD i 0 =
            ((pf k i : Nat) : Int)) := by
  intro kps
  induction kps with
  | nil =>
    intro buf hall hbuf
    refine ⟨hbuf, ?_⟩
    intro i h
    refine ⟨Or.inl rfl, ?_⟩
    rintro ⟨kp, hkp, -⟩
    simp at hkp
  | cons kp kps ih =>
    intro buf hall hbuf
    have hts : kp.2.2.length = n := hall kp (List.mem_cons_self kp kps)
    have hbuf1 : (writeTest (pf kp.1) 0 kp.2.2 buf).length = n := by
      rw [length_writeTest]
      omega
    have hstep : ∀ i (hi : i < n),
        (writeTest (pf kp.1) 0 kp.2.2 buf).getD i 0 =
          if kp.2.2.getD i false = true then ((pf kp.1 i : Nat) : Int) else buf.getD i 0 := by
      intro i hi
      have h1 : i < (writeTest (pf kp.1) 0 kp.2.2 buf).length := by omega
      have ht : i < kp.2.2.length := by omega
      have hb : i < buf.length := by omega
      rw [getD_lt _ _ i h1, getElem_writeTest (pf kp.1) 0 kp.2.2 buf i h1 ht hb]
      rw [getD_lt _ _ i ht, getD_lt _ _ i hb]
      by_cases hc : kp.2.2[i] = true
      · rw [if_pos hc, if_pos hc]
        rw [Nat.zero_add]
      · rw [if_neg hc, if_neg hc]
    have := ih (writeTest (pf kp.1) 0 kp.2.2 buf)
      (fun q hq => hall q (List.mem_cons.mpr (Or.inr hq))) hbuf1
    rw [List.foldl_cons]
    refine ⟨this.1, ?_⟩
    intro i hi
    have hmain := this.2 i hi
    constructor
    · rcases hmain.1 with heq | hex
      · rw [heq, hstep i hi]
        by_cases hc : kp.2.2.getD i false = true
        · rw [if_pos hc]
          exact Or.inr ⟨kp.1, rfl⟩
        · rw [if_neg hc]
          exact Or.inl rfl
      · exact Or.inr hex
    · rintro ⟨q, hq, hqt⟩
      rcases List.mem_cons.mp hq with rfl | hq'
      · rcases hmain.1 with heq | hex
        · rw [heq, hstep i hi, if_pos hqt]
          exact ⟨q.1, rfl⟩
        · exact hex
      · exact hmain.2 ⟨q, hq', hqt⟩

theorem nfoldPredictions_ok_elim {pf : Nat → Nat → Nat} {labels0 : List Nat}
    {nfolds? : Option Nat} {origins? : Option (List Nat)} {buf : List Int}
    (h : nfoldPredictions pf labels0 nfolds? origins? = .ok buf) :
    ∃ pairs, foldgenerator labels0 nfolds? origins? = .ok pairs ∧
      buf = runPredictions pf pairs labels0.length := by
  unfold nfoldPredictions at h
  split at h
  · exact absurd h (by simp)
  next pairs hp => exact ⟨pairs, hp, (Except.ok.inj h).symm⟩

/-! ## Claim theorems -/

instance exceptDecEq {ε α : Type} [DecidableEq ε] [DecidableEq α] :
    DecidableEq (Except ε α) := fun a b =>
  match a, b with
  | .error e, .error f =>
    if h : e = f then isTrue (by rw [h]) else isFalse fun hc => h (Except.error.inj hc)
  | .error e, .ok y => isFalse fun hc => Except.noConfusion hc
  | .ok x, .error f => isFalse fun hc => Except.noConfusion hc
  | .ok x, .ok y =>
    if h : x = y then isTrue (by rw [h]) else isFalse fun hc => h (Except.ok.inj hc)

/-- C5: whenever the smallest class has exactly one distinct origin (the code's
`fmin` — the minimum over classes of the class's distinct-origin count — equals 1),
`foldgenerator` fails with the `InsufficientOrigins` `ValueError` regardless of the
requested `nfolds`, so no `(train, test)` pair is produced. -/
theorem C5_insufficientOrigins (labels0 : List Nat) (nfolds? : Option Nat)
    (origins? : Option (List Nat)) (hsz : sizeOk labels0 origins?)
    (hf : fminOf labels0 origins? = 1) :
    foldgenerator labels0 nfolds? origins? = .error .insufficientOrigins := by
  rw [foldgenerator_eq_core labels0 nfolds? origins? hsz]
  unfold foldgeneratorCore
  unfold fminOf at hf
  rw [if_pos hf]

theorem C5_witness : foldgenerator [0, 1, 1] (some 4) none = .error .insufficientOrigins :=
  C5_insufficientOrigins [0, 1, 1] (some 4) none trivial (by decide)

/-- C10: calling `getfold` with `nfolds` omitted raises the invalid-fold-index
`ValueError` for every fold index (including 0) and every labels/origins input,
before any fold is computed: under Python 2 the line-98 guard `nfolds < fold`
compares `None < fold`, which is `True` for every integer, so the documented
omitted-`nfolds` default is never usable through `getfold`. -/
theorem C10_getfold_none_always_errors (labels : List Nat) (fold : Nat)
    (origins? : Option (List Nat)) :
    getfold labels fold none origins? = .error (.invalidFoldIndex fold none) := rfl

/-- C8: for labels `[0,0,0,1,1,1]` with default identity origins and `nfolds = 3`,
`foldgenerator` yields exactly 3 `(train, test)` pairs; every test mask holds
exactly 2 samples, exactly one among the class-0 samples (indices 0-2) and exactly
one among the class-1 samples (indices 3-5). -/
theorem C8_concrete_example :
    foldgenerator [0, 0, 0, 1, 1, 1] (some 3) none =
      .ok [([false, true, true, false, true, true], [true, false, false, true, false, false]),
        ([true, false, true, true, false, true], [false, true, false, false, true, false]),
        ([true, true, false, true, true, false], [false, false, true, false, false, true])] ∧
    ([([false, true, true, false, true, true], [true, false, false, true, false, false]),
        ([true, false, true, true, false, true], [false, true, false, false, true, false]),
        ([true, true, false, true, true, false], [false, false, true, false, false, true])] :
      List (List Bool × List Bool)).length = 3 ∧
    (([([false, true, true, false, true, true], [true, false, false, true, false, false]),
        ([true, false, true, true, false, true], [false, true, false, false, true, false]),
        ([true, true, false, true, true, false], [false, false, true, false, false, true])] :
      List (List Bool × List Bool)).all fun p =>
        (p.2.count true == 2) && ((p.2.take 3).count true == 1) &&
          ((p.2.drop 3).count true == 1)) = true := by
  refine ⟨?_, by decide, by decide⟩
  decide

theorem getfold_eq_of_le (labels : List Nat) (fold nfolds : Nat) (origins? : Option (List Nat))
    (hle : ¬nfolds < fold) :
    getfold labels fold (some nfolds) origins? =
      (match foldgenerator labels (some nfolds) origins? with
        | .error e => .error (.gen e)
        | .ok pairs =>
          match pairs.get? fold with
          | some p => .ok p
          | none =>
            if pairs.isEmpty then .error .unboundLoopVar
            else .error (.foldsTooSmall fold (pairs.length - 1))) := by
  show (if nfolds < fold then Except.error (GetfoldError.invalidFoldIndex fold (some nfolds))
      else _) = _
  rw [if_neg hle]

/-- C7 (amended): `getfold` raises `InvalidFoldIndex` whenever `fold > nfolds`; when
`fold ≤ nfolds` but the realized fold sequence is shorter than `fold + 1`, it raises
the line-103 `ValueError` whose payload is the index of the LAST produced fold —
that is, the realized fold count minus one, not the realized fold count itself; and
when `fold` is reachable it returns the `fold`-th `(train, test)` pair. -/
theorem C7_getfold_amended (labels : List Nat) (fold nfolds : Nat)
    (origins? : Option (List Nat)) :
    (nfolds < fold →
      getfold labels fold (some nfolds) origins? =
        .error (.invalidFoldIndex fold (some nfolds))) ∧
    ∀ pairs, foldgenerator labels (some nfolds) origins? = .ok pairs → fold ≤ nfolds →
      (∀ hlt : fold < pairs.length,
        getfold labels fold (some nfolds) origins? = .ok pairs[fold]) ∧
      (pairs.length ≤ fold → pairs ≠ [] →
        getfold labels fold (some nfolds) origins? =
          .error (.foldsTooSmall fold (pairs.length - 1))) := by
  constructor
  · intro h
    show (if nfolds < fold then Except.error (GetfoldError.invalidFoldIndex fold (some nfolds))
        else _) = _
    rw [if_pos h]
  · intro pairs hgen hle
    have hred := getfold_eq_of_le labels fold nfolds origins? (by omega)
    rw [hgen] at hred
    constructor
    · intro hlt
      rw [hred]
      show (match pairs.get? fold with
        | some p => Except.ok p
        | none =>
          if pairs.isEmpty then Except.error GetfoldError.unboundLoopVar
          else Except.error (GetfoldError.foldsTooSmall fold (pairs.length - 1))) = _
      rw [show pairs.get? fold = some pairs[fold] by
        rw [List.get?_eq_getElem?, List.getElem?_eq_getElem hlt]]
    · intro hge hne
      rw [hred]
      show (match pairs.get? fold with
        | some p => Except.ok p
        | none =>
          if pairs.isEmpty then Except.error GetfoldError.unboundLoopVar
          else Except.error (GetfoldError.foldsTooSmall fold (pairs.length - 1))) = _
      rw [show pairs.get? fold = none by
        rw [List.get?_eq_getElem?]; exact List.getElem?_eq_none hge]
      rw [if_neg (by simpa [List.isEmpty_iff] using hne)]

theorem C7_witness :
    getfold [0, 0, 1, 1] 5 (some 3) none = .error (.invalidFoldIndex 5 (some 3)) :=
  (C7_getfold_amended [0, 0, 1, 1] 5 3 none).1 (by omega)

/-- C7 counterexample: with labels `[0,0,1,1]`, `nfolds = 10` and `fold = 5`, the
realized fold count after clamping is 2, yet the raised error's payload slot — the
value the message presents as "the number of actual folds" — is 1, not 2: the claim
that the error reports the realized fold count is false on the code. -/
theorem C7_counterexample :
    getfold [0, 0, 1, 1] 5 (some 10) none = .error (.foldsTooSmall 5 1) ∧
    foldgenerator [0, 0, 1, 1] (some 10) none =
      .ok [([false, true, false, true], [true, false, true, false]),
        ([true, false, true, false], [false, true, false, true])] ∧
    ([([false, true, false, true], [true, false, true, false]),
        ([true, false, true, false], [false, true, false, true])] :
      List (List Bool × List Bool)).length = 2 ∧
    (1 : Nat) ≠ 2 := by
  refine ⟨?_, ?_, by decide, by decide⟩
  · decide
  · decide

/-- C1: for every valid input — matching sizes, class-pure origins, every class with
at least 2 distinct origins (`2 ≤ fmin`), and an in-contract `nfolds` (omitted or
positive) — `foldgenerator` succeeds and the produced `(train, test)` sequence is a
partition: in every pair the train mask is the pointwise complement of the test
mask, and every sample index lies in exactly one test mask across the sequence. -/
theorem C1_partition (labels0 : List Nat) (nfolds? : Option Nat) (origins? : Option (List Nat))
    (hsz : sizeOk labels0 origins?) (hpure : classPureOpt labels0 origins?)
    (hf : 2 ≤ fminOf labels0 origins?) (hn : nfoldsPos nfolds?) :
    ∃ pairs, foldgenerator labels0 nfolds? origins? = .ok pairs ∧
      pairs.length = (resolveNfolds (fminOf labels0 origins?) nfolds?).1 ∧
      (∀ k, k < pairs.length → ∀ i, i < labels0.length →
        trainAt pairs k i = !(testAt pairs k i)) ∧
      (∀ i, i < labels0.length → ∃! k, k < pairs.length ∧ testAt pairs k i = true) := by
  have hlenr : (resolveOrigins labels0.length origins?).length = labels0.length :=
    resolveOrigins_length labels0 origins? hsz
  have hlen' : (normaliselabels labels0).1.length =
      (resolveOrigins labels0.length origins?).length := by
    rw [normaliselabels_length, hlenr]
  have hlen0 : labels0.length = (resolveOrigins labels0.length origins?).length := by omega
  have hdisj := disjoint_of_classPure hlen0 hpure
  have hnf : 1 ≤ (resolveNfolds (fminOf labels0 origins?) nfolds?).1 :=
    resolveNfolds_pos _ nfolds? hf hn
  obtain ⟨fold, ha⟩ := assignAll_ok_exists hlen' hnf hdisj
  have hfne : fminAux (normaliselabels labels0).1 (resolveOrigins labels0.length origins?) ≠ 1 :=
    fun hc => by rw [show fminOf labels0 origins? = fminAux (normaliselabels labels0).1
      (resolveOrigins labels0.length origins?) from rfl, hc] at hf; omega
  have hgen : foldgenerator labels0 nfolds? origins? =
      .ok (masks (resolveNfolds (fminOf labels0 origins?) nfolds?).1 fold) := by
    rw [foldgenerator_eq_core labels0 nfolds? origins? hsz]
    exact core_ok_intro hfne ha
  obtain ⟨hfl, hrange⟩ := assignAll_ok_main ha hlen'
  have hfl0 : fold.length = labels0.length := by
    rw [hfl, normaliselabels_length]
  refine ⟨masks (resolveNfolds (fminOf labels0 origins?) nfolds?).1 fold, hgen,
    length_masks _ _, ?_, ?_⟩
  · intro k hk i hi
    rw [length_masks] at hk
    have hif : i < fold.length := by omega
    rw [trainAt_masks _ fold k i hk hif, testAt_masks _ fold k i hk hif]
    show decide (¬fold[i] = (k : Int)) = _
    rw [decide_not]
  · intro i hi
    have hif : i < fold.length := by omega
    obtain ⟨h0, hlt⟩ := hrange i hif
    have hkn : (fold[i]).toNat < (resolveNfolds (fminOf labels0 origins?) nfolds?).1 := by omega
    refine ⟨(fold[i]).toNat, ⟨by rw [length_masks]; exact hkn, ?_⟩, ?_⟩
    · rw [testAt_masks _ fold _ i hkn hif]
      have hco : (((fold[i]).toNat : Nat) : Int) = fold[i] := Int.toNat_of_nonneg h0
      rw [hco]
      simp
    · rintro k ⟨hk, ht⟩
      rw [length_masks] at hk
      rw [testAt_masks _ fold k i hk hif] at ht
      have hv : fold[i] = (k : Int) := of_decide_eq_true ht
      omega

theorem C1_witness :
    sizeOk [0, 0, 1, 1] none ∧ classPureOpt [0, 0, 1, 1] none ∧
      2 ≤ fminOf [0, 0, 1, 1] none ∧ nfoldsPos (none : Option Nat) ∧
      ∃ pairs, foldgenerator [0, 0, 1, 1] none none = .ok pairs ∧
        pairs.length = (resolveNfolds (fminOf [0, 0, 1, 1] none) none).1 ∧
        (∀ k, k < pairs.length → ∀ i, i < ([0, 0, 1, 1] : List Nat).length →
          trainAt pairs k i = !(testAt pairs k i)) ∧
        (∀ i, i < ([0, 0, 1, 1] : List Nat).length →
          ∃! k, k < pairs.length ∧ testAt pairs k i = true) :=
  ⟨trivial, by decide, by decide, trivial,
    C1_partition [0, 0, 1, 1] none none trivial (by decide) (by decide) trivial⟩

/-- C2: whenever a `foldgenerator` call with explicit origins succeeds, any two
samples sharing an origin value carry identical bits in every produced test mask and
every produced train mask — all samples of an origin received the same fold index,
so an origin group is never split between a train mask and its test mask. -/
theorem C2_origin_groups (labels0 : List Nat) (nfolds? : Option Nat) (origins : List Nat)
    (pairs : List (List Bool × List Bool))
    (hok : foldgenerator labels0 nfolds? (some origins) = .ok pairs) :
    ∀ i j, i < labels0.length → j < labels0.length →
      origins.getD i 0 = origins.getD j 0 →
      ∀ k, k < pairs.length →
        testAt pairs k i = testAt pairs k j ∧ trainAt pairs k i = trainAt pairs k j := by
  have hsz := foldgenerator_some_ok_size hok
  rw [foldgenerator_eq_core labels0 nfolds? (some origins) hsz] at hok
  obtain ⟨hfne, fold, ha, hpairs⟩ := core_ok_elim hok
  subst hpairs
  have hlen' : (normaliselabels labels0).1.length =
      (resolveOrigins labels0.length (some origins)).length := by
    rw [normaliselabels_length]
    exact hsz.symm
  obtain ⟨hfl, -⟩ := assignAll_ok_main ha hlen'
  intro i j hi hj ho k hk
  rw [length_masks] at hk
  have hio : i < origins.length := by omega
  have hjo : j < origins.length := by omega
  have hif : i < fold.length := by rw [hfl, normaliselabels_length]; omega
  have hjf : j < fold.length := by rw [hfl, normaliselabels_length]; omega
  have ho' : origins[i] = origins[j] := by
    rw [← getD_lt origins 0 i hio, ← getD_lt origins 0 j hjo]
    exact ho
  have heq := assignAll_ok_eq ha hlen' i j hif hjf
    (show i < (resolveOrigins labels0.length (some origins)).length from hio)
    (show j < (resolveOrigins labels0.length (some origins)).length from hjo) ho'
  constructor
  · rw [testAt_masks _ fold k i hk hif, testAt_masks _ fold k j hk hjf, heq]
  · rw [trainAt_masks _ fold k i hk hif, trainAt_masks _ fold k j hk hjf, heq]

theorem C2_witness :
    testAt [([false, false, true, true], [true, true, false, false]),
        ([true, true, false, false], [false, false, true, true])] 0 0 =
      testAt [([false, false, true, true], [true, true, false, false]),
        ([true, true, false, false], [false, false, true, true])] 0 1 ∧
    trainAt [([false, false, true, true], [true, true, false, false]),
        ([true, true, false, false], [false, false, true, true])] 0 0 =
      trainAt [([false, false, true, true], [true, true, false, false]),
        ([true, true, false, false], [false, false, true, true])] 0 1 :=
  C2_origin_groups [0, 0, 0, 0] (some 2) [5, 5, 7, 7]
    [([false, false, true, true], [true, true, false, false]),
      ([true, true, false, false], [false, false, true, true])]
    (by decide) 0 1 (by decide) (by decide) (by decide) 0 (by decide)

/-- C4: with valid data (sizes match, class-pure origins, `2 ≤ fmin`): requesting
`nfolds > fmin` is never an error — the warning flag of the fold-count resolution is
set, the call succeeds, and it yields the mask sequence for exactly `fmin` folds
(`masks` lists the pairs by increasing fold index 0,…,fmin-1); with `nfolds`
omitted, it succeeds with `min 10 fmin` folds. -/
theorem C4_fold_count (labels0 : List Nat) (origins? : Option (List Nat)) (n : Nat)
    (hsz : sizeOk labels0 origins?) (hpure : classPureOpt labels0 origins?)
    (hf : 2 ≤ fminOf labels0 origins?) :
    (fminOf labels0 origins? < n →
      (resolveNfolds (fminOf labels0 origins?) (some n)).2 = true ∧
      ∃ fold, foldgenerator labels0 (some n) origins? =
          .ok (masks (fminOf labels0 origins?) fold) ∧
        (masks (fminOf labels0 origins?) fold).length = fminOf labels0 origins?) ∧
    (∃ fold, foldgenerator labels0 none origins? =
        .ok (masks (min (fminOf labels0 origins?) 10) fold) ∧
      (masks (min (fminOf labels0 origins?) 10) fold).length =
        min (fminOf labels0 origins?) 10) := by
  have hlenr : (resolveOrigins labels0.length origins?).length = labels0.length :=
    resolveOrigins_length labels0 origins? hsz
  have hlen' : (normaliselabels labels0).1.length =
      (resolveOrigins labels0.length origins?).length := by
    rw [normaliselabels_length, hlenr]
  have hlen0 : labels0.length = (resolveOrigins labels0.length origins?).length := by omega
  have hdisj := disjoint_of_classPure hlen0 hpure
  have hfne : fminAux (normaliselabels labels0).1 (resolveOrigins labels0.length origins?) ≠ 1 :=
    fun hc => by
      rw [show fminOf labels0 origins? = fminAux (normaliselabels labels0).1
        (resolveOrigins labels0.length origins?) from rfl, hc] at hf
      omega
  constructor
  · intro hlt
    have hclamp := resolveNfolds_clamp (fminOf labels0 origins?) n hlt
    refine ⟨by rw [hclamp], ?_⟩
    obtain ⟨fold, ha⟩ := assignAll_ok_exists hlen'
      (resolveNfolds_pos (fminOf labels0 origins?) (some n) hf (by show 1 ≤ n; omega)) hdisj
    refine ⟨fold, ?_, length_masks _ _⟩
    rw [foldgenerator_eq_core labels0 (some n) origins? hsz]
    have := core_ok_intro hfne ha
    rw [this]
    rw [show (resolveNfolds (fminAux (normaliselabels labels0).1
      (resolveOrigins labels0.length origins?)) (some n)).1 = fminOf labels0 origins? by
        rw [show fminAux (normaliselabels labels0).1 (resolveOrigins labels0.length origins?) =
          fminOf labels0 origins? from rfl, hclamp]]
  · obtain ⟨fold, ha⟩ := assignAll_ok_exists hlen'
      (resolveNfolds_pos (fminOf labels0 origins?) none hf trivial) hdisj
    refine ⟨fold, ?_, length_masks _ _⟩
    rw [foldgenerator_eq_core labels0 none origins? hsz]
    have := core_ok_intro hfne ha
    rw [this]
    rfl

theorem C4_witness :
    sizeOk [0, 0, 1, 1] none ∧ classPureOpt [0, 0, 1, 1] none ∧
      2 ≤ fminOf [0, 0, 1, 1] none ∧ fminOf [0, 0, 1, 1] none < 10 ∧
      ((resolveNfolds (fminOf [0, 0, 1, 1] none) (some 10)).2 = true ∧
        ∃ fold, foldgenerator [0, 0, 1, 1] (some 10) none =
            .ok (masks (fminOf [0, 0, 1, 1] none) fold) ∧
          (masks (fminOf [0, 0, 1, 1] none) fold).length = fminOf [0, 0, 1, 1] none) :=
  ⟨trivial, by decide, by decide, by decide,
    (C4_fold_count [0, 0, 1, 1] none 10 trivial (by decide) (by decide)).1 (by decide)⟩

/-- C9: whenever the `return_predictions` path of `nfoldcrossvalidation` runs to
completion (fold generation succeeds and every abstracted per-fold classifier call
is total), the returned predictions buffer has one entry per sample and no entry
still holds the sentinel `-1` it was pre-filled with: every sample index lies in
exactly one test mask, and each fold overwrites exactly its test-mask indices with
(non-negative) predicted class codes. -/
theorem C9_predictions_filled (pf : Nat → Nat → Nat) (labels0 : List Nat)
    (nfolds? : Option Nat) (origins? : Option (List Nat)) (buf : List Int)
    (hok : nfoldPredictions pf labels0 nfolds? origins? = .ok buf) :
    buf.length = labels0.length ∧ (-1 : Int) ∉ buf := by
  obtain ⟨pairs, hgen, hbuf⟩ := nfoldPredictions_ok_elim hok
  have hsz : sizeOk labels0 origins? := by
    cases origins? with
    | none => trivial
    | some o => exact foldgenerator_some_ok_size hgen
  rw [foldgenerator_eq_core labels0 nfolds? origins? hsz] at hgen
  obtain ⟨hfne, fold, ha, hpairs⟩ := core_ok_elim hgen
  subst hpairs
  set nf := (resolveNfolds
    (fminAux (normaliselabels labels0).1 (resolveOrigins labels0.length origins?)) nfolds?).1
    with hnfdef
  have hlen' : (normaliselabels labels0).1.length =
      (resolveOrigins labels0.length origins?).length := by
    rw [normaliselabels_length, resolveOrigins_length labels0 origins? hsz]
  obtain ⟨hfl, hrange⟩ := assignAll_ok_main ha hlen'
  have hfl0 : fold.length = labels0.length := by rw [hfl, normaliselabels_length]
  have hmasksLen : ∀ kp ∈ (masks nf fold).enum, kp.2.2.length = labels0.length := by
    intro kp hkp
    rcases List.mem_iff_getElem.mp hkp with ⟨k, hk, he⟩
    have hk2 : k < (masks nf fold).length := by rw [← List.enum_length]; exact hk
    have hmem : kp.2 ∈ masks nf fold := by
      rw [List.getElem_enum] at he
      rw [show kp.2 = (masks nf fold)[k] from (congrArg Prod.snd he).symm]
      exact List.getElem_mem hk2
    obtain ⟨-, h2⟩ := mem_masks_lengths nf fold kp.2 hmem
    rw [h2, hfl0]
  have hspec := predFold_spec pf labels0.length ((masks nf fold).enum)
    (List.replicate labels0.length (-1 : Int)) hmasksLen (List.length_replicate _ _)
  rw [hbuf]
  unfold runPredictions
  refine ⟨hspec.1, ?_⟩
  intro hmem
  rcases List.mem_iff_getElem.mp hmem with ⟨i, hi, he⟩
  have hin : i < labels0.length := by rw [hspec.1] at hi; exact hi
  have hif : i < fold.length := by omega
  obtain ⟨h0, hlt⟩ := hrange i hif
  have hkn : (fold[i]).toNat < nf := by omega
  have hkm : (fold[i]).toNat < (masks nf fold).length := by rw [length_masks]; exact hkn
  have hcov : ∃ kp ∈ (masks nf fold).enum, kp.2.2.getD i false = true := by
    refine ⟨((fold[i]).toNat, (masks nf fold)[(fold[i]).toNat]), ?_, ?_⟩
    · refine List.mem_iff_getElem.mpr
        ⟨(fold[i]).toNat, by rw [List.enum_length]; exact hkm, ?_⟩
      rw [List.getElem_enum]
    · show ((masks nf fold)[(fold[i]).toNat]).2.getD i false = true
      have hta : ((masks nf fold).getD (fold[i]).toNat ([], [])).2.getD i false = true := by
        show testAt (masks nf fold) (fold[i]).toNat i = true
        rw [testAt_masks nf fold _ i hkn hif]
        have hco : (((fold[i]).toNat : Nat) : Int) = fold[i] := Int.toNat_of_nonneg h0
        rw [hco]
        simp
      rwa [getD_lt _ _ _ hkm] at hta
  obtain ⟨k2, hfinal⟩ := (hspec.2 i hin).2 hcov
  rw [getD_lt _ _ i hi, he] at hfinal
  have := Int.ofNat_nonneg (pf k2 i)
  omega

theorem C9_witness :
    (([0, 0] : List Int).length = ([0, 0] : List Nat).length) ∧
      (-1 : Int) ∉ ([0, 0] : List Int) :=
  C9_predictions_filled (fun _ _ => 0) [0, 0] none none [0, 0] (by decide)

/-- C6 counterexample: labels `[0,1]` with origins `[5,5]` put origin 5 under two
different labels, yet the call fails with `InsufficientOrigins` (the `fmin = 1`
precheck fires first), not with `InconsistentOrigin` — so the claim as stated is
false on the code. -/
theorem C6_counterexample :
    ([5, 5] : List Nat).getD 0 0 = ([5, 5] : List Nat).getD 1 0 ∧
    ([0, 1] : List Nat).getD 0 0 ≠ ([0, 1] : List Nat).getD 1 0 ∧
    foldgenerator [0, 1] none (some [5, 5]) = .error .insufficientOrigins ∧
    FoldError.insufficientOrigins ≠ FoldError.inconsistentOrigin 5 := by
  refine ⟨by decide, by decide, by decide, by decide⟩

/-- C6 (amended): if some origin value appears under two different class labels
while the inputs otherwise pass the prechecks (matching sizes, every class with at
least 2 distinct origins so the `InsufficientOrigins` check does not preempt, and an
omitted or positive `nfolds`), then `foldgenerator` fails with `InconsistentOrigin`,
and the origin it identifies does appear under two different labels. -/
theorem C6_amended (labels0 origins : List Nat) (nfolds? : Option Nat)
    (hsz : origins.length = labels0.length) (hn : nfoldsPos nfolds?)
    (hf : 2 ≤ fminOf labels0 (some origins)) (i j : Nat) (hi : i < labels0.length)
    (hj : j < labels0.length) (ho : origins.getD i 0 = origins.getD j 0)
    (hne : labels0.getD i 0 ≠ labels0.getD j 0) :
    ∃ o, foldgenerator labels0 nfolds? (some origins) = .error (.inconsistentOrigin o) ∧
      ∃ p q, p < labels0.length ∧ q < labels0.length ∧
        origins.getD p 0 = o ∧ origins.getD q 0 = o ∧
        labels0.getD p 0 ≠ labels0.getD q 0 := by
  have hszOk : sizeOk labels0 (some origins) := hsz
  have hlen' : (normaliselabels labels0).1.length = origins.length := by
    rw [normaliselabels_length, hsz]
  have hio : i < origins.length := by omega
  have hjo : j < origins.length := by omega
  have hi' : i < (normaliselabels labels0).1.length := by rw [normaliselabels_length]; omega
  have hj' : j < (normaliselabels labels0).1.length := by rw [normaliselabels_length]; omega
  have hone : (normaliselabels labels0).1[i] ≠ (normaliselabels labels0).1[j] := by
    intro hc
    apply hne
    rw [getD_lt labels0 0 i hi, getD_lt labels0 0 j hj]
    exact (normaliselabels_eq_iff labels0 i j hi hj).mp hc
  have ho' : origins[i] = origins[j] := by
    rw [← getD_lt origins 0 i hio, ← getD_lt origins 0 j hjo]
    exact ho
  have hnf : 1 ≤ (resolveNfolds (fminOf labels0 (some origins)) nfolds?).1 :=
    resolveNfolds_pos _ nfolds? hf hn
  have hnotok := assignAll_not_ok
    (resolveNfolds (fminOf labels0 (some origins)) nfolds?).1 hlen' hi' hj' hio hjo ho' hone
  cases hres : assignAll (normaliselabels labels0).1 origins
      (resolveNfolds (fminOf labels0 (some origins)) nfolds?).1 with
  | ok fold => exact absurd hres (hnotok fold)
  | error e =>
    obtain ⟨o, rfl⟩ := assignAll_error_kind hres hnf
    obtain ⟨p, q, hp, hq, hpo, hqo, hpor, hqor, hpq⟩ := assignAll_error_spanning hres hlen'
    have hpn : p < labels0.length := by rw [normaliselabels_length] at hp; exact hp
    have hqn : q < labels0.length := by rw [normaliselabels_length] at hq; exact hq
    refine ⟨o, ?_, p, q, hpn, hqn, ?_, ?_, ?_⟩
    · rw [foldgenerator_eq_core labels0 nfolds? (some origins) hszOk]
      refine core_error_intro ?_ ?_
      · intro hc
        have hcc : fminOf labels0 (some origins) = 1 := hc
        omega
      · exact hres
    · rw [getD_lt origins 0 p hpo]; exact hpor
    · rw [getD_lt origins 0 q hqo]; exact hqor
    · intro hc
      apply hpq
      refine (normaliselabels_eq_iff labels0 p q hpn hqn).mpr ?_
      rw [getD_lt labels0 0 p hpn, getD_lt labels0 0 q hqn] at hc
      exact hc

theorem C6_witness :
    ∃ o, foldgenerator [0, 0, 1, 1] none (some [0, 1, 1, 2]) =
        .error (.inconsistentOrigin o) ∧
      ∃ p q, p < ([0, 0, 1, 1] : List Nat).length ∧ q < ([0, 0, 1, 1] : List Nat).length ∧
        ([0, 1, 1, 2] : List Nat).getD p 0 = o ∧ ([0, 1, 1, 2] : List Nat).getD q 0 = o ∧
        ([0, 0, 1, 1] : List Nat).getD p 0 ≠ ([0, 0, 1, 1] : List Nat).getD q 0 :=
  C6_amended [0, 0, 1, 1] [0, 1, 1, 2] none (by decide) trivial (by decide) 1 2
    (by decide) (by decide) (by decide) (by decide)

/-- C3: per class, the greedy fold assigner's processing list `classPairs` is
exactly the class's distinct origins paired with their total sample counts, listed
in ascending lexicographic `(weight, origin)` order (`pairRel`); and every
successful step takes the first fold of currently least accumulated weight (strictly
smaller than every earlier fold's weight), records that fold for every sample of the
step's origin while leaving all other samples unchanged, and adds the origin's
weight to exactly that fold's accumulator.  Determinism is definitional: the
assignment is a Lean function of labels, nfolds and origins. -/
theorem C3_greedy_assignment (labels origins : List Nat) (lab : Nat) :
    List.Sorted pairRel (classPairs labels origins lab) ∧
    (classPairs labels origins lab).Perm
      ((classOrigins labels origins lab).map fun o => (List.count o origins, o)) ∧
    ∀ (st : List Int × List Nat) (p : Nat × Nat) (st' : List Int × List Nat),
      assignOrigin origins st p = .ok st' →
      ∃ f, ∃ hfl : f < st.2.length,
        (∀ g (hg : g < st.2.length), st.2[f] ≤ st.2[g]) ∧
        (∀ g (hg : g < st.2.length), g < f → st.2[f] < st.2[g]) ∧
        st'.2 = bumpWeight st.2 f p.1 ∧
        (st'.2.getD f 0 = st.2.getD f 0 + p.1 ∧
          ∀ g, g ≠ f → st'.2.getD g 0 = st.2.getD g 0) ∧
        ∀ i (h1 : i < origins.length) (h2 : i < st.1.length) (h3 : i < st'.1.length),
          st'.1[i] = if origins[i] = p.2 then (f : Int) else st.1[i] := by
  refine ⟨List.sorted_insertionSort pairRel _, classPairs_perm labels origins lab, ?_⟩
  intro st p st' h
  obtain ⟨f, harg, hlen1, he2, hget, -⟩ := assignOrigin_ok_elim h
  obtain ⟨hfl, hmin, hfirst⟩ := argmin_spec st.2 f harg
  refine ⟨f, hfl, hmin, hfirst, he2, ?_, hget⟩
  rw [he2]
  exact bumpWeight_getD st.2 f p.1 hfl

theorem C3_witness :
    List.Sorted pairRel (classPairs [0, 0, 1, 1] [0, 1, 1, 2] 0) ∧
    (classPairs [0, 0, 1, 1] [0, 1, 1, 2] 0).Perm
      ((classOrigins [0, 0, 1, 1] [0, 1, 1, 2] 0).map fun o =>
        (List.count o [0, 1, 1, 2], o)) ∧
    ∃ f, ∃ hfl : f < ([0] : List Nat).length,
      (∀ g (hg : g < ([0] : List Nat).length), ([0] : List Nat)[f] ≤ ([0] : List Nat)[g]) ∧
      (∀ g (hg : g < ([0] : List Nat).length), g < f →
        ([0] : List Nat)[f] < ([0] : List Nat)[g]) ∧
      ([1] : List Nat) = bumpWeight [0] f 1 ∧
      (([1] : List Nat).getD f 0 = ([0] : List Nat).getD f 0 + 1 ∧
        ∀ g, g ≠ f → ([1] : List Nat).getD g 0 = ([0] : List Nat).getD g 0) ∧
      ∀ i (h1 : i < ([7] : List Nat).length) (h2 : i < ([-1] : List Int).length)
        (h3 : i < ([0] : List Int).length),
        ([0] : List Int)[i] = if ([7] : List Nat)[i] = 7 then (f : Int)
          else ([-1] : List Int)[i] :=
  ⟨(C3_greedy_assignment [0, 0, 1, 1] [0, 1, 1, 2] 0).1,
    (C3_greedy_assignment [0, 0, 1, 1] [0, 1, 1, 2] 0).2.1,
    (C3_greedy_assignment [0, 0, 1, 1] [7] 0).2.2 ([-1], [0]) (1, 7) ([0], [1]) (by decide)⟩

end Milk
